import Mathlib

/-!
Verification development for the CHPP code generator
(`chpp/api_parser/chre_api_to_chpp.py`).

The development shallowly embeds the two halves of the script:

* `ApiParser._parse_structs_and_unions`: the type-graph builder (work-list
  discovery of reachable structs/unions, reverse `appears_in` edges and the
  propagation of the `has_vla_member` flag);
* `CodeGenerator`: member-type resolution, topological ordering of struct
  declarations, sizeof-function generation, union-variant generation, and the
  runtime semantics of the emitted C fragments (variable-length-array
  encoding, union-variant switch, encode+allocate entry point).

Python loops become fuel-indexed recursions (fuel exhaustion modelling
non-termination); `RuntimeError` raises become `Except` errors carrying the
data that the format string of the source interpolates; Python sets are
modelled as duplicate-free lists built with `addSet`.
-/

namespace ChreApiToChpp

/-- Declarators of a parsed C type as exposed by pyclibrary: a member type is
a pointer when the declarator list starts with `*`, and a fixed array when it
is a single bracketed length. -/
inductive Declarator where
  | ptr : Declarator
  | arr : Nat → Declarator
deriving DecidableEq

/-- A raw C type as produced by the parser front end: the textual type spec
(for example `uint32_t` or `struct chreWwanCellInfo`) plus declarators. -/
structure CType where
  type_spec : String
  declarators : List Declarator
deriving DecidableEq

/-- Annotation records, as read from `chre_api_annotations.json` and indexed
by (type, field).  The `union_variant` mapping is an ordered list of
(discriminator value, field name) pairs. -/
inductive Annot where
  | rename_type : String → Annot
  | rewrite_type : String → Annot
  | fixed_value : String → Annot
  | var_len_array : String → Annot
  | union_variant : String → List (Nat × String) → Annot
  | enum : Annot
deriving DecidableEq

/-- Member record built by `_parse_structs_and_unions` for each struct/union
field (`member_info` in the source).  `nested_type_name` is meaningful only
when `is_nested_type` is true (the source omits the key otherwise). -/
structure MemberInfo where
  name : String
  type : CType
  annotations : List Annot
  is_nested_type : Bool
  nested_type_name : String
deriving DecidableEq

/-- Per-type entry of `self.structs_and_unions`. -/
structure TypeEntry where
  appears_in : List String
  dependencies : List String
  has_vla_member : Bool
  members : List MemberInfo
  is_union : Bool
deriving DecidableEq

/-- The type graph: a dict keyed by CHRE type name, modelled as an
association list in insertion order. -/
abbrev Graph := List (String × TypeEntry)

/-- Fatal generation-time failures.  Each constructor corresponds to a
`RuntimeError` raise in the source (carrying the data interpolated into the
message); `keyError` models a Python `KeyError` on a missing dict key and
`outOfFuel` models non-termination of a source loop. -/
inductive GenError where
  | unknownType : String → GenError
  | unannotatedPointer : MemberInfo → GenError
  | nestedVla : String → String → GenError
  | invalidMapping : String → String → GenError
  | badStructName : String → GenError
  | cantRename : String → GenError
  | keyError : String → GenError
  | outOfFuel : GenError
deriving DecidableEq

/-- Model of Python `str.startswith`, computing over the character list. -/
def pyStartsWith (s pre : String) : Bool := pre.data.isPrefixOf s.data

/-- Splitting of a character list on a separator character, matching the
semantics of Python `str.split(sep)` (adjacent separators give empty
pieces). -/
def splitChars (sep : Char) : List Char → List (List Char)
  | [] => [[]]
  | c :: cs =>
    let r := splitChars sep cs
    if c = sep then [] :: r
    else
      match r with
      | [] => [[c]]
      | h :: t => (c :: h) :: t

/-- Model of Python `str.split(' ')`. -/
def pySplitSpace (s : String) : List String := (splitChars ' ' s.data).map String.mk

/-- Model of the Python idiom `s[0].upper() + s[1:]` used for the service
name (empty input gives the empty string). -/
def pyUpperFirst (s : String) : String :=
  String.mk (match s.data with
    | [] => []
    | c :: cs => Char.toUpper c :: cs)

/-- Lexicographic code-point comparison of character lists, the order
Python `sorted()` uses on strings. -/
def charListLt : List Char → List Char → Bool
  | [], [] => false
  | [], _ :: _ => true
  | _ :: _, [] => false
  | a :: as, b :: bs =>
    if a < b then true else if b < a then false else charListLt as bs

/-- Model of the Python string order used by `sorted()`. -/
def pyStrLt (a b : String) : Bool := charListLt a.data b.data

/-- Association-list lookup, first match wins (dict indexing). -/
def lookupG : Graph → String → Option TypeEntry
  | [], _ => none
  | p :: rest, n => if n = p.1 then some p.2 else lookupG rest n

/-- Keys of the graph in insertion order. -/
def keysOf (g : Graph) : List String := g.map Prod.fst

/-- Dependencies of a type (empty for a type not in the graph). -/
def depsOf (g : Graph) (n : String) : List String :=
  match lookupG g n with
  | some e => e.dependencies
  | none => []

/-- Reverse dependency edges of a type (empty for a type not in the graph). -/
def appearsOf (g : Graph) (n : String) : List String :=
  match lookupG g n with
  | some e => e.appears_in
  | none => []

/-- Current `has_vla_member` flag of a type (false for a missing type). -/
def vlaOf (g : Graph) (n : String) : Bool :=
  match lookupG g n with
  | some e => e.has_vla_member
  | none => false

/-- Set insertion for Python sets modelled as lists. -/
def addSet (l : List String) (x : String) : List String :=
  if x ∈ l then l else l ++ [x]

/-- Test for a `var_len_array` record. -/
def isVlaAnnot : Annot → Bool
  | .var_len_array _ => true
  | _ => false

/-- Test for a `rewrite_type` record. -/
def isRewriteAnnot : Annot → Bool
  | .rewrite_type _ => true
  | _ => false

/-- True when some member of the entry carries a `var_len_array` record:
this is the direct (pre-propagation) variable-length condition. -/
def memberVla (e : TypeEntry) : Bool :=
  e.members.any (fun m => m.annotations.any isVlaAnnot)

/-- Direct variable-length condition of a type in the graph. -/
def directVlaOf (g : Graph) (n : String) : Bool :=
  match lookupG g n with
  | some e => memberVla e
  | none => false

/-- Dependency edge: `a` directly contains a field of type `b`. -/
def depEdge (g : Graph) (a b : String) : Prop := b ∈ depsOf g a

/-- Reverse (appears-in) edge as stored in the graph. -/
def appEdge (g : Graph) (a b : String) : Prop := b ∈ appearsOf g a

/-! ## Type graph construction (`ApiParser._parse_structs_and_unions`)

The annotation index (built by `_parse_annotations`) is modelled as a
function from (type name, field name) to the ordered annotation list, with
the type-level marker field spelled "." as in the JSON; the `defaultdict`
semantics of the source means absent pairs simply give the empty list.  The
header-parser front end (`self.parser.defs`) is modelled as a resolver
returning, for a known struct/union name, its union flag and raw member
list. -/

/-- Annotation index: (type, field) to ordered annotation records. -/
abbrev AnnIndex := String → String → List Annot

/-- Resolver capability standing for `self.parser.defs`: `none` when the
name is neither a parsed struct nor a parsed union, else the union flag and
the ordered raw member list (member name and raw type). -/
abbrev Resolver := String → Option (Bool × List (String × CType))

/-- Member record construction inside the member loop of
`_parse_structs_and_unions`: nested-type detection looks at the raw type
spec prefix and the nested name is the second space-separated token. -/
def mkMemberInfo (ann : AnnIndex) (tn : String) (r : String × CType) : MemberInfo :=
  if pyStartsWith r.2.type_spec "struct " || pyStartsWith r.2.type_spec "union " then
    { name := r.1, type := r.2, annotations := ann tn r.1, is_nested_type := true,
      nested_type_name := String.mk ((splitChars ' ' r.2.type_spec.data).getD 1 []) }
  else
    { name := r.1, type := r.2, annotations := ann tn r.1, is_nested_type := false,
      nested_type_name := "" }

/-- One iteration of the member loop: records the member, adds the
dependency and work-list item for a nested type, and flips
`has_vla_member` when the member carries a `var_len_array` record.  The
state is the entry under construction plus the names appended to the
work-list. -/
def processMember (ann : AnnIndex) (tn : String)
    (st : TypeEntry × List String) (r : String × CType) : TypeEntry × List String :=
  let mi := mkMemberInfo ann tn r
  let entry := st.1
  let entry :=
    if mi.is_nested_type then
      { entry with dependencies := addSet entry.dependencies mi.nested_type_name }
    else entry
  let wl := if mi.is_nested_type then st.2 ++ [mi.nested_type_name] else st.2
  let entry := { entry with members := entry.members ++ [mi] }
  let entry :=
    if entry.has_vla_member then entry
    else { entry with has_vla_member := mi.annotations.any isVlaAnnot }
  (entry, wl)

/-- Builds the entry for one popped type name: resolver failure is the
"Couldn't find ... in parsed structs/unions" raise, otherwise the member
loop runs over the raw member list.  Returns the entry plus the work-list
additions. -/
def parseEntry (ann : AnnIndex) (resolve : Resolver) (tn : String) :
    Except GenError (TypeEntry × List String) :=
  match resolve tn with
  | none => .error (.unknownType tn)
  | some (isU, raw) =>
    let init : TypeEntry :=
      { appears_in := [], dependencies := [], has_vla_member := false,
        members := [], is_union := isU }
    .ok (raw.foldl (processMember ann tn) (init, []))

/-- Work-list loop of `_parse_structs_and_unions`: pop from the end of the
list (`list.pop()`), skip names already in the graph, otherwise parse the
entry and append it. -/
def parseLoop (ann : AnnIndex) (resolve : Resolver) :
    Nat → List String → Graph → Except GenError Graph
  | 0, _, _ => .error .outOfFuel
  | fuel + 1, wl, acc =>
    match wl.getLast? with
    | none => .ok acc
    | some tn =>
      if (lookupG acc tn).isSome then parseLoop ann resolve fuel wl.dropLast acc
      else
        match parseEntry ann resolve tn with
        | .error e => .error e
        | .ok (entry, nw) =>
          parseLoop ann resolve fuel (wl.dropLast ++ nw) (acc ++ [(tn, entry)])

/-- Adds `n` to the `appears_in` set of the entry keyed `d` (a no-op when
`d` is absent, which the construction rules out since dependency edges stay
inside the graph). -/
def addAppear (g : Graph) (d n : String) : Graph :=
  g.map (fun p =>
    if p.1 = d then (p.1, { p.2 with appears_in := addSet p.2.appears_in n }) else p)

/-- Reverse-edge pass: for every entry and each of its dependencies, record
the entry's name in the dependency's `appears_in` set. -/
def addAppearsIn (g : Graph) : Graph :=
  g.foldl (fun acc p => p.2.dependencies.foldl (fun a d => addAppear a d p.1) acc) g

/-- Sets the `has_vla_member` flag of the entry keyed `t` to true. -/
def setVla (g : Graph) (t : String) : Graph :=
  g.map (fun p =>
    if p.1 = t then (p.1, { p.2 with has_vla_member := true }) else p)

/-- Inner work-list of the flag propagation: pop a name from the end, set
its flag, and extend the work-list with its `appears_in` set. -/
def markVla : Nat → Graph → List String → Except GenError Graph
  | 0, _, _ => .error .outOfFuel
  | fuel + 1, g, wl =>
    match wl.getLast? with
    | none => .ok g
    | some t => markVla fuel (setVla g t) (wl.dropLast ++ appearsOf g t)

/-- Outer loop of the flag propagation: walk the entries in insertion order
and, for each entry whose current flag is set, mark the transitive
`appears_in` closure. -/
def propagateVla (fuel : Nat) : Graph → List String → Except GenError Graph
  | g, [] => .ok g
  | g, n :: rest =>
    match lookupG g n with
    | none => propagateVla fuel g rest
    | some e =>
      if e.has_vla_member then
        match markVla fuel g e.appears_in with
        | .error err => .error err
        | .ok g2 => propagateVla fuel g2 rest
      else propagateVla fuel g rest

/-- Whole of `_parse_structs_and_unions`: work-list discovery seeded with
the root structs, then reverse edges, then flag propagation over all
entries. -/
def parseStructsAndUnions (ann : AnnIndex) (resolve : Resolver)
    (roots : List String) (fuel : Nat) : Except GenError Graph :=
  match parseLoop ann resolve fuel roots [] with
  | .error e => .error e
  | .ok g =>
    let g2 := addAppearsIn g
    propagateVla fuel g2 (keysOf g2)

/-! ## Code generator state and naming (`CodeGenerator`) -/

/-- State the code generator reads: the parsed graph, the annotation index
and the service name derived from the header file name. -/
structure Api where
  structs_and_unions : Graph
  annotations : AnnIndex
  service_name : String

/-- First `rename_type` override among the type-level annotation records. -/
def typeLevelRename : List Annot → Option String
  | [] => none
  | .rename_type ov :: _ => some ov
  | _ :: rest => typeLevelRename rest

/-- The `struct ` or `union ` keyword of `_get_struct_or_union_prefix`;
indexing a name missing from the graph is a `KeyError`. -/
def structOrUnionKeyword (api : Api) (t : String) : Except GenError String :=
  match lookupG api.structs_and_unions t with
  | none => .error (.keyError t)
  | some e => .ok (if e.is_union then "union " else "struct ")

/-- Translation of `_get_chpp_type_from_chre`: honour a `rename_type`
override, otherwise rewrite the `chre` name prefix to `Chpp`; a name with
neither is the "Couldn't figure out new type name" raise. -/
def get_chpp_type_from_chre (api : Api) (chre_type : String) : Except GenError String :=
  match structOrUnionKeyword api chre_type with
  | .error e => .error e
  | .ok kw =>
    match typeLevelRename (api.annotations chre_type ".") with
    | some ov => .ok (kw ++ ov)
    | none =>
      if pyStartsWith chre_type "chre" then .ok (kw ++ "Chpp" ++ chre_type.drop 4)
      else .error (.cantRename chre_type)

/-- Annotation scan at the top of `_get_member_type`: the first
`rewrite_type` override wins; a `var_len_array` record yields the
`struct ChppOffset` descriptor type unless the caller asked for the
underlying element type. -/
def memberTypeOverride (underlying_vla_type : Bool) : List Annot → Option String
  | [] => none
  | .rewrite_type ov :: _ => some ov
  | .var_len_array _ :: rest =>
    if underlying_vla_type then memberTypeOverride underlying_vla_type rest
    else some "struct ChppOffset"
  | _ :: rest => memberTypeOverride underlying_vla_type rest

/-- Translation of `_get_member_type`.  After the annotation scan, a raw
pointer type with no override is the "Pointer types require annotation"
raise; a nested type goes through the CHPP type namer and anything else
keeps its raw type spec. -/
def get_member_type (api : Api) (m : MemberInfo) (underlying_vla_type : Bool) :
    Except GenError String :=
  match memberTypeOverride underlying_vla_type m.annotations with
  | some s => .ok s
  | none =>
    if underlying_vla_type = false ∧ m.type.declarators.head? = some .ptr then
      .error (.unannotatedPointer m)
    else if m.is_nested_type then get_chpp_type_from_chre api m.nested_type_name
    else .ok m.type.type_spec

/-- Service name with its first letter upcased. -/
def capitalizedServiceName (api : Api) : String :=
  pyUpperFirst api.service_name

/-- Translation of `_strip_prefix_and_service_from_chre_struct_name`: the
"Unexpected structure name" raise fires unless the name is
`chre<CapitalizedService><Core>`. -/
def stripPrefixAndService (api : Api) (struct : String) : Except GenError String :=
  let chre_stripped := struct.drop 4
  if pyStartsWith struct "chre" = false ∨
      pyStartsWith chre_stripped (capitalizedServiceName api) = false then
    .error (.badStructName struct)
  else .ok (chre_stripped.drop api.service_name.length)

/-- Name of the generated sizeof function
(`_get_chpp_sizeof_function_name`). -/
def getChppSizeofFunctionName (api : Api) (t : String) : Except GenError String :=
  match stripPrefixAndService api t with
  | .error e => .error e
  | .ok core => .ok ("chpp" ++ capitalizedServiceName api ++ "SizeOf" ++ core ++ "FromChre")

/-- Size expression emitted by `_get_chpp_sizeof_call` for a top-level
instance named `in`: a call to the generated sizeof function when the type
carries variable-length data, a plain `sizeof` otherwise. -/
def getChppSizeofCall (api : Api) (t : String) : Except GenError String :=
  match lookupG api.structs_and_unions t with
  | none => .error (.keyError t)
  | some e =>
    if e.has_vla_member then
      match getChppSizeofFunctionName api t with
      | .error er => .error er
      | .ok fn => .ok (fn ++ "(in)")
    else
      match get_chpp_type_from_chre api t with
      | .error er => .error er
      | .ok cn => .ok ("sizeof(" ++ cn ++ ")")

/-- The `has_vla_member` flag of a nested type, with a `KeyError` for a
name missing from the graph. -/
def hasVlaOf (api : Api) (t : String) : Except GenError Bool :=
  match lookupG api.structs_and_unions t with
  | none => .error (.keyError t)
  | some e => .ok e.has_vla_member

/-! ## Topological ordering (`_sorted_structs`)

Python's `sorted()` over strings is modelled with an insertion sort on the
core string order; the recursion of `sort_helper` is fuel-indexed, `none`
standing for both unbounded recursion on a cyclic graph and the `KeyError`
of an unresolvable name. -/

/-- Boolean string order used to model `sorted()`. -/
def strLe (a b : String) : Bool := pyStrLt a b || a == b

/-- Insertion step of the sort. -/
def insertStr (x : String) : List String → List String
  | [] => [x]
  | y :: ys => if strLe x y then x :: y :: ys else y :: insertStr x ys

/-- Insertion sort modelling Python `sorted()` on a list of names. -/
def sortStrs (l : List String) : List String := l.foldr insertStr []

mutual

/-- Translation of `sort_helper`: recurse into the sorted dependencies that
are not yet visited, then append the key to the result.  The state is the
pair (visited, result).  Note the key itself is never added to the visited
set here; only dependencies are. -/
def sortHelper (g : Graph) : Nat → String → List String × List String →
    Option (List String × List String)
  | 0, _, _ => none
  | fuel + 1, key, st =>
    match lookupG g key with
    | none => none
    | some e =>
      match sortHelperDeps g fuel (sortStrs e.dependencies) st with
      | none => none
      | some (v, r) => some (v, r ++ [key])

/-- The dependency loop inside `sort_helper`: visit each unvisited
dependency, adding it to the visited set before recursing. -/
def sortHelperDeps (g : Graph) : Nat → List String → List String × List String →
    Option (List String × List String)
  | 0, _, _ => none
  | _ + 1, [], st => some st
  | fuel + 1, d :: ds, (v, r) =>
    if d ∈ v then sortHelperDeps g fuel ds (v, r)
    else
      match sortHelper g fuel d (v ++ [d], r) with
      | none => none
      | some st2 => sortHelperDeps g fuel ds st2

end

/-- The root loop of `_sorted_structs` over the sorted root names. -/
def sortRoots (g : Graph) (fuel : Nat) :
    List String → List String × List String → Option (List String × List String)
  | [], st => some st
  | n :: rest, st =>
    match sortHelper g fuel n st with
    | none => none
    | some st2 => sortRoots g fuel rest st2

/-- Translation of `_sorted_structs`: run `sort_helper` on each sorted root
starting from an empty visited set and result list, and return the result
list. -/
def sortedStructs (g : Graph) (rootNodes : List String) (fuel : Nat) :
    Option (List String) :=
  match sortRoots g fuel (sortStrs rootNodes) ([], []) with
  | none => none
  | some st => some st.2

/-! ## Sizeof function generation (`_gen_chpp_sizeof_function`) -/

/-- Characterization of one generated sizeof function: the CHPP type name
whose `sizeof` seeds the accumulator, and one (length field, element type)
addend per `var_len_array` record encountered. -/
structure SizeofFn where
  chppTypeName : String
  terms : List (String × String)
deriving DecidableEq

/-- Annotation loop of `_gen_chpp_sizeof_function` for one member: each
`var_len_array` record first trips the "Nested variable-length arrays is
not currently supported" raise when the member's own element type carries
variable-length data, and otherwise contributes one addend using the
member's underlying element type. -/
def sizeofAnnTerms (api : Api) (chre_type : String) (m : MemberInfo) :
    List Annot → Except GenError (List (String × String))
  | [] => .ok []
  | .var_len_array lf :: rest =>
    match (if m.is_nested_type then hasVlaOf api m.nested_type_name
           else Except.ok false) with
    | .error e => .error e
    | .ok true => .error (.nestedVla m.name chre_type)
    | .ok false =>
      match get_member_type api m true with
      | .error e => .error e
      | .ok et =>
        match sizeofAnnTerms api chre_type m rest with
        | .error e => .error e
        | .ok ts => .ok ((lf, et) :: ts)
  | _ :: rest => sizeofAnnTerms api chre_type m rest

/-- Member loop of `_gen_chpp_sizeof_function`. -/
def sizeofMembersTerms (api : Api) (chre_type : String) :
    List MemberInfo → Except GenError (List (String × String))
  | [] => .ok []
  | m :: ms =>
    match sizeofAnnTerms api chre_type m m.annotations with
    | .error e => .error e
    | .ok ts =>
      match sizeofMembersTerms api chre_type ms with
      | .error e => .error e
      | .ok rest => .ok (ts ++ rest)

/-- Translation of `_gen_chpp_sizeof_function`: nothing is generated for a
type without variable-length data, otherwise the function names are
computed (with their naming-convention raises) and the member loop yields
the addends. -/
def genChppSizeofFunction (api : Api) (chre_type : String) :
    Except GenError (Option SizeofFn) :=
  match lookupG api.structs_and_unions chre_type with
  | none => .error (.keyError chre_type)
  | some e =>
    if e.has_vla_member = false then .ok none
    else
      match stripPrefixAndService api chre_type with
      | .error er => .error er
      | .ok _ =>
        match get_chpp_type_from_chre api chre_type with
        | .error er => .error er
        | .ok cn =>
          match sizeofMembersTerms api chre_type e.members with
          | .error er => .error er
          | .ok terms => .ok (some { chppTypeName := cn, terms := terms })

/-- Value computed by a generated sizeof function on a source instance:
`inst` maps each scalar field name to its value and `sz` gives the byte
size the C compiler assigns to each emitted type name.  The emitted body
starts the accumulator at `sizeof` of the CHPP type and adds
length-field-value times element size per addend, in order. -/
def sizeofFnValue (sz : String → Nat) (f : SizeofFn) (inst : String → Nat) : Nat :=
  f.terms.foldl (fun acc t => acc + inst t.1 * sz t.2) (sz f.chppTypeName)

/-! ## Union variant generation (`_gen_union_variant_conversion_code`) -/

/-- Structure of the emitted union-variant fragment: a `memset` of the
whole union field to zero, then a switch on the discriminator whose cases
assign the resolved members, with `CHPP_ASSERT(false)` as default. -/
structure UnionVariantCode where
  union_field : String
  discriminator : String
  cases : List (Nat × MemberInfo)
deriving DecidableEq

/-- Mapping loop of `_gen_union_variant_conversion_code`: each mapping pair
looks the target field up among the union's members, the "Invalid mapping -
couldn't find target field" raise firing when it is absent. -/
def resolveMappingCases (ms : List MemberInfo) (chre_type : String) :
    List (Nat × String) → Except GenError (List (Nat × MemberInfo))
  | [] => .ok []
  | (v, fname) :: rest =>
    match ms.find? (fun mi => mi.name == fname) with
    | none => .error (.invalidMapping fname chre_type)
    | some mi =>
      match resolveMappingCases ms chre_type rest with
      | .error e => .error e
      | .ok cs => .ok ((v, mi) :: cs)

/-- Translation of `_gen_union_variant_conversion_code` for a member `m`
carrying `union_variant disc mapping`. -/
def genUnionVariantConversionCode (api : Api) (m : MemberInfo) (disc : String)
    (mapping : List (Nat × String)) : Except GenError UnionVariantCode :=
  match lookupG api.structs_and_unions m.nested_type_name with
  | none => .error (.keyError m.nested_type_name)
  | some struct_info =>
    match resolveMappingCases struct_info.members m.nested_type_name mapping with
    | .error e => .error e
    | .ok cs =>
      .ok { union_field := m.name, discriminator := disc, cases := cs }

/-- Runtime state of the output union field after the emitted fragment:
each member slot's copied value (the `memset` zeroes everything first, so
slots not assigned stay zero and padding is deterministic), plus whether the
default branch's fatal `CHPP_ASSERT(false)` fired. -/
structure UnionEncodeResult where
  storage : String → Nat
  assert_failed : Bool

/-- Runtime semantics of the emitted union-variant fragment: zero the whole
union storage, then switch on the discriminator value; the first matching
case copies its member's value from the input, and a value with no case
runs the fatal assertion. -/
def unionVariantRuntime (code : UnionVariantCode) (discVal : Nat)
    (input : String → Nat) : UnionEncodeResult :=
  match code.cases.find? (fun c => c.1 == discVal) with
  | some c =>
    { storage := fun f => if f = c.2.name then input c.2.name else 0,
      assert_failed := false }
  | none => { storage := fun _ => 0, assert_failed := true }

/-! ## Runtime semantics of emitted code fragments

The functions in this section give the run-time meaning of the C code
templates that the generator emits; machine integers are modelled as `Nat`
(the emitted arithmetic stays far below the 16-bit descriptor bounds in the
claims considered here). -/

/-- Result of running the code emitted by `_gen_vla_encoding` for one
`var_len_array` member: the two descriptor fields written to
`out-><member>`, the payload cursor `*vlaOffset` after the fragment, the
number of elements copied by the emitted loop, and whether the emitted
`CHPP_ASSERT` bounds check failed. -/
structure VlaEncodeResult where
  length : Nat
  offset : Nat
  vlaOffset : Nat
  copied : Nat
  assert_failed : Bool
deriving DecidableEq

/-- Runtime semantics of the fragment emitted by `_gen_vla_encoding`.
`count` is the value of the source length field, `elemSize` the byte size of
one encoded element, `vlaOffset` the payload cursor on entry and
`payloadSize` the payload capacity.  The fragment sets
`out->m.length = count * elemSize`, asserts
`vlaOffset + length <= payloadSize`, and claims payload space (setting the
offset and advancing the cursor, then copying `count` elements) only when
the length is positive and fits; otherwise it only zeroes the offset. -/
def vlaEncodingSemantics (count elemSize vlaOffset payloadSize : Nat) : VlaEncodeResult :=
  let length := count * elemSize
  let assert_failed := decide (payloadSize < vlaOffset + length)
  if 0 < length ∧ vlaOffset + length ≤ payloadSize then
    { length := length, offset := vlaOffset, vlaOffset := vlaOffset + length,
      copied := count, assert_failed := assert_failed }
  else
    { length := length, offset := 0, vlaOffset := vlaOffset, copied := 0,
      assert_failed := assert_failed }

/-- Values stored in the caller-provided output parameters of an
encode+allocate entry point; `out = 0` models a NULL pointer. -/
structure AllocState where
  out : Nat
  outSize : Nat
deriving DecidableEq

/-- Result of one call to an emitted encode+allocate function. -/
structure AllocCallResult where
  ret : Bool
  final : AllocState
  encoderInvoked : Bool
deriving DecidableEq

/-- Runtime semantics of the function emitted by
`_gen_encode_allocation_function`.  `payloadSize` is the value of the
emitted size expression and `mallocResult` the pointer returned by
`chppMalloc` (0 on allocation failure).  The emitted body stores the
`chppMalloc` result through `*out` before testing it; only on success does
it run the conversion function, store `*outSize` and return true. -/
def encodeAllocationSemantics (payloadSize mallocResult : Nat)
    (initial : AllocState) : AllocCallResult :=
  let afterMalloc : AllocState := { initial with out := mallocResult }
  if mallocResult ≠ 0 then
    { ret := true, final := { afterMalloc with outSize := payloadSize },
      encoderInvoked := true }
  else
    { ret := false, final := afterMalloc, encoderInvoked := false }

/-! ## Claims C2, C3 and C10: emitted VLA encoding and allocation wrapper -/

/-- Claim C2, counterexample.  The claim states that on a bounds overflow the
emitted code falls back to a descriptor with zero length and zero offset.  At
cursor 0, capacity 4, two elements of size 4 (an overflow, since 0 + 8 > 4)
the emitted code leaves the computed length 8 in the descriptor and only
zeroes the offset, so the descriptor length is not zero. -/
theorem C2_counterexample :
    4 < 0 + 2 * 4 ∧
    (vlaEncodingSemantics 2 4 0 4).offset = 0 ∧
    (vlaEncodingSemantics 2 4 0 4).length ≠ 0 := by
  refine ⟨by decide, ?_, ?_⟩ <;> decide

/-- Claim C2, amended: when the cursor plus the computed byte length exceeds
the payload capacity, the emitted code keeps the computed length in the
descriptor, zeroes only the offset, copies nothing, does not advance the
cursor, and continues (the emitted `CHPP_ASSERT` bounds check fails, so the
fallback is silent only when assertions are compiled out). -/
theorem C2_amended (count elemSize cursor cap : Nat)
    (h : cap < cursor + count * elemSize) :
    vlaEncodingSemantics count elemSize cursor cap =
      { length := count * elemSize, offset := 0, vlaOffset := cursor,
        copied := 0, assert_failed := true } := by
  unfold vlaEncodingSemantics
  have hcond : ¬ (0 < count * elemSize ∧ cursor + count * elemSize ≤ cap) := by
    rintro ⟨-, hle⟩
    exact absurd h (Nat.not_lt.mpr hle)
  rw [if_neg hcond]
  simp [decide_eq_true_eq, h]

/-- Claim C2, witness: the amended theorem applied at the counterexample
input. -/
theorem C2_witness :
    vlaEncodingSemantics 2 4 0 4 =
      { length := 8, offset := 0, vlaOffset := 0, copied := 0,
        assert_failed := true } :=
  C2_amended 2 4 0 4 (by decide)

/-- Claim C3, counterexample.  The claim states that on allocation failure
the emitted entry point leaves both output parameters untouched.  Starting
from `*out = 7`, `*outSize = 5`, a failed allocation returns false and leaves
`*outSize` alone, but `*out` has been overwritten with the NULL result of
`chppMalloc` before the check, so the output pointer is not untouched. -/
theorem C3_counterexample :
    (encodeAllocationSemantics 24 0 { out := 7, outSize := 5 }).ret = false ∧
    (encodeAllocationSemantics 24 0 { out := 7, outSize := 5 }).final.outSize = 5 ∧
    (encodeAllocationSemantics 24 0 { out := 7, outSize := 5 }).final.out ≠ 7 := by
  refine ⟨?_, ?_, ?_⟩ <;> decide

/-- Claim C3, amended: when allocation fails, the emitted entry point
returns false, never invokes the encoder and leaves the output size
untouched, but the output buffer pointer has already been overwritten with
the allocator's NULL result before the check. -/
theorem C3_amended (payloadSize : Nat) (initial : AllocState) :
    encodeAllocationSemantics payloadSize 0 initial =
      { ret := false, final := { out := 0, outSize := initial.outSize },
        encoderInvoked := false } := by
  unfold encodeAllocationSemantics
  simp

/-- Claim C10: with a zero source length field the emitted VLA fragment
takes the fallback branch even when capacity is ample: the descriptor offset
is 0, the cursor does not move and no elements are copied; and in general a
nonzero descriptor offset is only ever assigned when the computed length is
positive and fits within the payload capacity. -/
theorem C10_zero_length_vla (elemSize cursor cap : Nat) :
    (vlaEncodingSemantics 0 elemSize cursor cap).offset = 0 ∧
    (vlaEncodingSemantics 0 elemSize cursor cap).vlaOffset = cursor ∧
    (vlaEncodingSemantics 0 elemSize cursor cap).copied = 0 ∧
    (∀ count, (vlaEncodingSemantics count elemSize cursor cap).offset ≠ 0 →
      0 < count * elemSize ∧ cursor + count * elemSize ≤ cap) := by
  refine ⟨?_, ?_, ?_, ?_⟩
  · simp [vlaEncodingSemantics]
  · simp [vlaEncodingSemantics]
  · simp [vlaEncodingSemantics]
  · intro count h
    by_cases hcond : 0 < count * elemSize ∧ cursor + count * elemSize ≤ cap
    · exact hcond
    · exfalso
      apply h
      unfold vlaEncodingSemantics
      rw [if_neg hcond]

/-- Claim C10, witness: at 3 elements of size 4, cursor 16, capacity 64, the
offset is nonzero and the theorem yields positivity and the bounds fit. -/
theorem C10_witness :
    (vlaEncodingSemantics 3 4 16 64).offset ≠ 0 ∧
    (0 < 3 * 4 ∧ 16 + 3 * 4 ≤ 64) :=
  ⟨by decide, (C10_zero_length_vla 4 16 64).2.2.2 3 (by decide)⟩

/-! ## Claim C5: topological sort of `_sorted_structs`

The graph below is acyclic and fully resolvable: type B depends on type A,
and both A and B are requested as roots.  `sort_helper` adds only
dependencies to the visited set, never the root it is called on, so after
the pass for root A (which emits A without recording it as visited) the
pass for root B sees its dependency A as unvisited and emits it again. -/

/-- Entry of the C5 graph with no dependencies. -/
def c5EntryA : TypeEntry :=
  { appears_in := [], dependencies := [], has_vla_member := false,
    members := [], is_union := false }

/-- Entry of the C5 graph depending on A. -/
def c5EntryB : TypeEntry :=
  { appears_in := [], dependencies := ["A"], has_vla_member := false,
    members := [], is_union := false }

/-- Acyclic two-node graph in which a root is also a dependency of another
root. -/
def c5Graph : Graph := [("A", c5EntryA), ("B", c5EntryB)]

/-- Claim C5: on the acyclic, fully resolvable graph `c5Graph` with root
set [A, B], the sort emits A twice — once as a root and once as the
unvisited dependency of B — so the result is not a total order with each
reachable type appearing exactly once, contradicting the claim (dependency
precedence does still hold on this output).  The visited set only ever
receives dependency nodes, never roots. -/
theorem C5_duplicate_emission :
    sortedStructs c5Graph ["A", "B"] 10 = some ["A", "A", "B"] ∧
    ((sortedStructs c5Graph ["A", "B"] 10).getD []).count "A" = 2 := by
  exact ⟨rfl, rfl⟩

/-! ## Claim C1: unannotated pointer fields

The type `chreP` below has a single member `data` of raw type `uint8_t *`
with no annotations at all.  The claim asserts that the run fails during
type-graph construction; the graph builder in fact accepts the field (it
never inspects declarators), and the "Pointer types require annotation"
raise lives in `_get_member_type`, which only runs during code
generation. -/

/-- Annotation index with no records at all. -/
def c1Ann : AnnIndex := fun _ _ => []

/-- Resolver exposing the single struct `chreP` with one raw pointer
member. -/
def c1Resolve : Resolver := fun n =>
  if n = "chreP" then
    some (false, [("data", { type_spec := "uint8_t", declarators := [Declarator.ptr] })])
  else none

/-- The graph the builder produces for `chreP`. -/
def c1Graph : Graph :=
  (parseStructsAndUnions c1Ann c1Resolve ["chreP"] 20).toOption.getD []

/-- The member record the builder stores for the pointer field. -/
def c1Member : MemberInfo :=
  { name := "data", type := { type_spec := "uint8_t", declarators := [Declarator.ptr] },
    annotations := [], is_nested_type := false, nested_type_name := "" }

/-- Code generator state over the C1 graph. -/
def c1Api : Api :=
  { structs_and_unions := c1Graph, annotations := c1Ann, service_name := "p" }

/-- Claim C1, counterexample: type-graph construction succeeds on a raw
pointer field with no `rewrite_type` and no `var_len_array` annotation (the
graph holds the unannotated pointer member), so the rejection claimed to
happen at graph-build time does not happen there; it is member-type
resolution during code generation that raises, naming the field. -/
theorem C1_counterexample :
    parseStructsAndUnions c1Ann c1Resolve ["chreP"] 20 = .ok c1Graph ∧
    (lookupG c1Graph "chreP").map TypeEntry.members = some [c1Member] ∧
    get_member_type c1Api c1Member false = .error (.unannotatedPointer c1Member) := by
  exact ⟨rfl, rfl, rfl⟩

/-- The annotation scan of `_get_member_type` finds nothing when the member
has no `rewrite_type` and no `var_len_array` record. -/
theorem memberTypeOverride_none (u : Bool) (l : List Annot)
    (h : ∀ a ∈ l, (isRewriteAnnot a || isVlaAnnot a) = false) :
    memberTypeOverride u l = none := by
  induction l with
  | nil => rfl
  | cons a rest ih =>
    have ha := h a (List.mem_cons_self a rest)
    have hrest := ih (fun x hx => h x (List.mem_cons_of_mem a hx))
    cases a with
    | rewrite_type ov => simp [isRewriteAnnot] at ha
    | var_len_array lf => simp [isVlaAnnot] at ha
    | rename_type ov => simpa [memberTypeOverride] using hrest
    | fixed_value v => simpa [memberTypeOverride] using hrest
    | union_variant d mp => simpa [memberTypeOverride] using hrest
    | enum => simpa [memberTypeOverride] using hrest

/-- Claim C1, amended: for every member whose raw type is a pointer and
which carries neither a `rewrite_type` override nor a `var_len_array`
annotation, member-type resolution during code generation fails with the
error naming the offending field; the rejection is raised there, not during
type-graph construction (which the counterexample shows accepting such a
field). -/
theorem C1_unannotated_pointer (api : Api) (m : MemberInfo)
    (hptr : m.type.declarators.head? = some Declarator.ptr)
    (hno : ∀ a ∈ m.annotations, (isRewriteAnnot a || isVlaAnnot a) = false) :
    get_member_type api m false = .error (.unannotatedPointer m) := by
  unfold get_member_type
  rw [memberTypeOverride_none false m.annotations hno]
  rw [if_pos ⟨rfl, hptr⟩]

/-- Claim C1, witness: the amended theorem applied to the concrete pointer
member of `chreP`. -/
theorem C1_witness :
    c1Member.type.declarators.head? = some Declarator.ptr ∧
    get_member_type c1Api c1Member false = .error (.unannotatedPointer c1Member) :=
  ⟨by rfl, C1_unannotated_pointer c1Api c1Member (by rfl) (by decide)⟩

/-! ## Claims C8 and C9: union variant generation -/

/-- When every mapping entry names an existing member, the mapping loop
succeeds. -/
theorem resolveMappingCases_ok_of_all (ms : List MemberInfo) (t : String)
    (mapping : List (Nat × String))
    (hall : ∀ p ∈ mapping, ∃ mi ∈ ms, mi.name = p.2) :
    ∃ cs, resolveMappingCases ms t mapping = .ok cs := by
  induction mapping with
  | nil => exact ⟨[], rfl⟩
  | cons  q rest ih =>
    obtain ⟨v, f⟩ := q
    obtain ⟨mi, hmi, hname⟩ := hall (v, f) (List.mem_cons_self _ _)
    have hsome : (ms.find? (fun mi => mi.name == f)).isSome := by
      rw [List.find?_isSome]
      exact ⟨mi, hmi, by simp [hname]⟩
    obtain ⟨mi0, hmi0⟩ := Option.isSome_iff_exists.mp hsome
    obtain ⟨cs, hcs⟩ := ih (fun p hp => hall p (List.mem_cons_of_mem _ hp))
    refine ⟨(v, mi0) :: cs, ?_⟩
    unfold resolveMappingCases
    rw [hmi0, hcs]

/-- A discriminator value absent from the mapping is also absent from the
resolved case list. -/
theorem resolveMappingCases_find_none (ms : List MemberInfo) (t : String)
    (mapping : List (Nat × String)) (cs : List (Nat × MemberInfo))
    (h : resolveMappingCases ms t mapping = .ok cs) (v : Nat)
    (hn : mapping.find? (fun q => q.1 == v) = none) :
    cs.find? (fun c => c.1 == v) = none := by
  induction mapping generalizing cs with
  | nil =>
    unfold resolveMappingCases at h
    cases h
    rfl
  | cons q rest ih =>
    obtain ⟨v0, f⟩ := q
    unfold resolveMappingCases at h
    rcases hf : ms.find? (fun mi => mi.name == f) with - | mi <;> rw [hf] at h
    · cases h
    · rcases hr : resolveMappingCases ms t rest with er | cs' <;> rw [hr] at h
      · cases h
      · cases h
        have hv0 : (v0 == v) = false := by
          by_contra hne
          have : (v0 == v) = true := by
            cases hb : (v0 == v)
            · exact absurd hb hne
            · rfl
          simp [List.find?, this] at hn
        have hn' : rest.find? (fun q => q.1 == v) = none := by
          simpa [List.find?, hv0] using hn
        simpa [List.find?, hv0] using ih cs' hr hn'

/-- A mapped discriminator value resolves to a case holding the member the
mapping names, and that member belongs to the union's member list. -/
theorem resolveMappingCases_find_some (ms : List MemberInfo) (t : String)
    (mapping : List (Nat × String)) (cs : List (Nat × MemberInfo))
    (h : resolveMappingCases ms t mapping = .ok cs) (v : Nat) (p : Nat × String)
    (hp : mapping.find? (fun q => q.1 == v) = some p) :
    ∃ mi, cs.find? (fun c => c.1 == v) = some (p.1, mi) ∧ mi.name = p.2 ∧ mi ∈ ms := by
  induction mapping generalizing cs with
  | nil => cases hp
  | cons q rest ih =>
    obtain ⟨v0, f⟩ := q
    unfold resolveMappingCases at h
    rcases hf : ms.find? (fun mi => mi.name == f) with - | mi <;> rw [hf] at h
    · cases h
    · rcases hr : resolveMappingCases ms t rest with er | cs' <;> rw [hr] at h
      · cases h
      · cases h
        cases hv0 : (v0 == v) with
        | true =>
          have hpq : p = (v0, f) := by
            have := hp
            simp [List.find?, hv0] at this
            exact this.symm
          refine ⟨mi, ?_, ?_, List.mem_of_find?_eq_some hf⟩
          · simp [List.find?, hv0, hpq]
          · have hb := List.find?_some hf
            simp at hb
            rw [hpq]
            exact hb
        | false =>
          have hp' : rest.find? (fun q => q.1 == v) = some p := by
            simpa [List.find?, hv0] using hp
          obtain ⟨mi', h1, h2, h3⟩ := ih cs' hr hp'
          exact ⟨mi', by simpa [List.find?, hv0] using h1, h2, h3⟩

/-- Claim C8: when every value of a `union_variant` mapping names an
existing field of the union, generation succeeds at build time (no
requirement that all discriminator values be mapped), and the emitted
fragment zeroes the whole union storage first (every slot other than the
copied one reads zero regardless of the input), copies the member
associated with a mapped discriminator value, and runs the fatal
`CHPP_ASSERT(false)` default for every unmapped value. -/
theorem C8_union_variant (api : Api) (m : MemberInfo) (disc : String)
    (mapping : List (Nat × String)) (ui : TypeEntry)
    (hui : lookupG api.structs_and_unions m.nested_type_name = some ui)
    (hall : ∀ p ∈ mapping, ∃ mi ∈ ui.members, mi.name = p.2) :
    ∃ code, genUnionVariantConversionCode api m disc mapping = .ok code ∧
      code.union_field = m.name ∧ code.discriminator = disc ∧
      (∀ v input, mapping.find? (fun q => q.1 == v) = none →
        (unionVariantRuntime code v input).assert_failed = true ∧
        ∀ f, (unionVariantRuntime code v input).storage f = 0) ∧
      (∀ v input p, mapping.find? (fun q => q.1 == v) = some p →
        (unionVariantRuntime code v input).assert_failed = false ∧
        (unionVariantRuntime code v input).storage p.2 = input p.2 ∧
        ∀ f, f ≠ p.2 → (unionVariantRuntime code v input).storage f = 0) := by
  obtain ⟨cs, hcs⟩ := resolveMappingCases_ok_of_all ui.members m.nested_type_name mapping hall
  refine ⟨{ union_field := m.name, discriminator := disc, cases := cs }, ?_, rfl, rfl, ?_, ?_⟩
  · simp [genUnionVariantConversionCode, hui, hcs]
  · intro v input hn
    have := resolveMappingCases_find_none ui.members m.nested_type_name mapping cs hcs v hn
    constructor
    · simp [unionVariantRuntime, this]
    · intro f
      simp [unionVariantRuntime, this]
  · intro v input p hp
    obtain ⟨mi, h1, h2, -⟩ :=
      resolveMappingCases_find_some ui.members m.nested_type_name mapping cs hcs v p hp
    refine ⟨?_, ?_, ?_⟩
    · simp [unionVariantRuntime, h1]
    · simp [unionVariantRuntime, h1, h2]
    · intro f hf
      simp [unionVariantRuntime, h1, h2]
      intro hfeq
      exact absurd hfeq hf

/-- Entry modelling a union with two members `a` and `b`. -/
def c8UnionEntry : TypeEntry :=
  { appears_in := [], dependencies := [], has_vla_member := false,
    members :=
      [{ name := "a", type := { type_spec := "uint32_t", declarators := [] },
         annotations := [], is_nested_type := false, nested_type_name := "" },
       { name := "b", type := { type_spec := "uint64_t", declarators := [] },
         annotations := [], is_nested_type := false, nested_type_name := "" }],
    is_union := true }

/-- Member of a containing struct whose type is the union above, carrying
the `union_variant` annotation. -/
def c8Member : MemberInfo :=
  { name := "u", type := { type_spec := "union chreWwanU", declarators := [] },
    annotations := [Annot.union_variant "type" [(1, "a"), (2, "b")]],
    is_nested_type := true, nested_type_name := "chreWwanU" }

/-- Code generator state for the union examples. -/
def c8Api : Api :=
  { structs_and_unions := [("chreWwanU", c8UnionEntry)],
    annotations := fun _ _ => [], service_name := "wwan" }

/-- Example input values of the union members. -/
def c8Input : String → Nat := fun f => if f = "a" then 5 else 7

/-- Claim C8, witness: for the mapping 1 to a, 2 to b, generation succeeds;
discriminator 3 runs the fatal assertion at runtime, and discriminator 1
copies member `a` while member `b` reads zero (the zeroed storage). -/
theorem C8_witness :
    ∃ code,
      genUnionVariantConversionCode c8Api c8Member "type" [(1, "a"), (2, "b")] = .ok code ∧
      (unionVariantRuntime code 3 c8Input).assert_failed = true ∧
      (unionVariantRuntime code 1 c8Input).assert_failed = false ∧
      (unionVariantRuntime code 1 c8Input).storage "a" = 5 ∧
      (unionVariantRuntime code 1 c8Input).storage "b" = 0 := by
  obtain ⟨code, hgen, -, -, hnone, hsome⟩ :=
    C8_union_variant c8Api c8Member "type" [(1, "a"), (2, "b")] c8UnionEntry
      (by rfl) (by decide)
  obtain ⟨ha, -⟩ := hnone 3 c8Input (by rfl)
  obtain ⟨hb, hc, hd⟩ := hsome 1 c8Input (1, "a") (by rfl)
  refine ⟨code, hgen, ha, hb, ?_, hd "b" (by decide)⟩
  simpa [c8Input] using hc

/-- When some mapping entry names a field that is not a member of the
union, the mapping loop fails with the error naming the first such missing
field. -/
theorem resolveMappingCases_bad (ms : List MemberInfo) (t : String)
    (mapping : List (Nat × String))
    (hbad : ∃ p ∈ mapping, ∀ mi ∈ ms, mi.name ≠ p.2) :
    ∃ fname, (∀ mi ∈ ms, mi.name ≠ fname) ∧
      resolveMappingCases ms t mapping = .error (.invalidMapping fname t) := by
  induction mapping with
  | nil =>
    obtain ⟨p, hp, -⟩ := hbad
    cases hp
  | cons q rest ih =>
    obtain ⟨v, f⟩ := q
    rcases hf : ms.find? (fun mi => mi.name == f) with - | mi
    · refine ⟨f, ?_, ?_⟩
      · intro mi hmi
        have := List.find?_eq_none.mp hf mi hmi
        simpa using this
      · unfold resolveMappingCases
        rw [hf]
    · have hmem := List.mem_of_find?_eq_some hf
      have hname : mi.name = f := by
        have hb := List.find?_some hf
        simpa using hb
      have hbad' : ∃ p ∈ rest, ∀ mi ∈ ms, mi.name ≠ p.2 := by
        obtain ⟨p, hp, hnp⟩ := hbad
        rcases List.mem_cons.mp hp with hhd | htl
        · exfalso
          exact hnp mi hmem (by rw [hname, hhd])
        · exact ⟨p, htl, hnp⟩
      obtain ⟨fname, h1, h2⟩ := ih hbad'
      refine ⟨fname, h1, ?_⟩
      unfold resolveMappingCases
      rw [hf, h2]

/-- Claim C9: a `union_variant` mapping referencing a field name absent
from the union's members makes generation fail with the fatal error naming
the missing field and the union type; no code object is produced (so no
switch case is ever emitted without an assignment). -/
theorem C9_invalid_mapping (api : Api) (m : MemberInfo) (disc : String)
    (mapping : List (Nat × String)) (ui : TypeEntry)
    (hui : lookupG api.structs_and_unions m.nested_type_name = some ui)
    (hbad : ∃ p ∈ mapping, ∀ mi ∈ ui.members, mi.name ≠ p.2) :
    ∃ fname, (∀ mi ∈ ui.members, mi.name ≠ fname) ∧
      genUnionVariantConversionCode api m disc mapping =
        .error (.invalidMapping fname m.nested_type_name) := by
  obtain ⟨fname, h1, h2⟩ :=
    resolveMappingCases_bad ui.members m.nested_type_name mapping hbad
  refine ⟨fname, h1, ?_⟩
  simp [genUnionVariantConversionCode, hui, h2]

/-- Claim C9, witness: a mapping entry targeting the nonexistent field `zz`
of the union makes generation fail with the error naming `zz` and the union
type. -/
theorem C9_witness :
    ∃ fname, (∀ mi ∈ c8UnionEntry.members, mi.name ≠ fname) ∧
      genUnionVariantConversionCode c8Api c8Member "type" [(1, "a"), (3, "zz")] =
        .error (.invalidMapping fname "chreWwanU") :=
  C9_invalid_mapping c8Api c8Member "type" [(1, "a"), (3, "zz")] c8UnionEntry
    (by rfl) (by decide)

/-! ## Claims C6 and C7: sizeof-function generation -/

/-- Success test for generation results. -/
def isOkE {α : Type} : Except GenError α → Bool
  | .ok _ => true
  | .error _ => false

/-- A successful generation result holds a value. -/
theorem isOkE_exists {α : Type} {x : Except GenError α} (h : isOkE x = true) :
    ∃ a, x = .ok a := by
  cases x with
  | ok a => exact ⟨a, rfl⟩
  | error e => simp [isOkE] at h

/-- Length field of the first `var_len_array` record of a member. -/
def firstVlaField : List Annot → Option String
  | [] => none
  | .var_len_array lf :: _ => some lf
  | _ :: rest => firstVlaField rest

/-- Total value of the variable-length addends of a generated sizeof
function. -/
def termsSum (sz inst : String → Nat) (ts : List (String × String)) : Nat :=
  (ts.map (fun t => inst t.1 * sz t.2)).sum

/-- Follows the wording of the spec for claim C6: the contribution of one
direct member to the encoded size is the instance's length-field value
times the element's encoded size for a `var_len_array` member, and zero
otherwise. -/
def specMemberContribution (api : Api) (sz inst : String → Nat) (m : MemberInfo) : Nat :=
  match firstVlaField m.annotations with
  | some lf => inst lf * sz ((get_member_type api m true).toOption.getD "")
  | none => 0

/-- The foldl of the emitted accumulation equals the seed plus the addend
sum. -/
theorem foldl_terms_eq (sz inst : String → Nat) (ts : List (String × String)) :
    ∀ a : Nat, ts.foldl (fun acc t => acc + inst t.1 * sz t.2) a = a + termsSum sz inst ts := by
  induction ts with
  | nil => intro a; simp [termsSum]
  | cons t rest ih =>
    intro a
    simp only [List.foldl_cons, ih, termsSum, List.map_cons, List.sum_cons]
    omega

/-- Value of a generated sizeof function: static size plus the addend sum. -/
theorem sizeofFnValue_eq (sz inst : String → Nat) (f : SizeofFn) :
    sizeofFnValue sz f inst = sz f.chppTypeName + termsSum sz inst f.terms :=
  foldl_terms_eq sz inst f.terms (sz f.chppTypeName)

/-- A member with no `var_len_array` record contributes no addends and no
errors. -/
theorem sizeofAnnTerms_novla (api : Api) (t : String) (m : MemberInfo)
    (anns : List Annot) (h : anns.any isVlaAnnot = false) :
    sizeofAnnTerms api t m anns = .ok [] := by
  induction anns with
  | nil => rfl
  | cons a rest ih =>
    have ha : isVlaAnnot a = false := by
      cases hb : isVlaAnnot a
      · rfl
      · simp [List.any_cons, hb] at h
    have hrest : rest.any isVlaAnnot = false := by
      simpa [List.any_cons, ha] using h
    cases a with
    | var_len_array lf => simp [isVlaAnnot] at ha
    | rename_type ov => simpa [sizeofAnnTerms] using ih hrest
    | rewrite_type ov => simpa [sizeofAnnTerms] using ih hrest
    | fixed_value v => simpa [sizeofAnnTerms] using ih hrest
    | union_variant d mp => simpa [sizeofAnnTerms] using ih hrest
    | enum => simpa [sizeofAnnTerms] using ih hrest

/-- Shape of a successful annotation loop for one member carrying at most
one `var_len_array` record: either no record and no addends, or exactly one
addend built from the length field and the member's resolved element
type. -/
theorem sizeofAnnTerms_ok_shape (api : Api) (t : String) (m : MemberInfo)
    (anns : List Annot) (ts : List (String × String))
    (h : sizeofAnnTerms api t m anns = .ok ts)
    (hwf : anns.countP isVlaAnnot ≤ 1) :
    (firstVlaField anns = none ∧ ts = []) ∨
    (∃ lf et, firstVlaField anns = some lf ∧
      get_member_type api m true = .ok et ∧ ts = [(lf, et)]) := by
  induction anns generalizing ts with
  | nil =>
    left
    refine ⟨rfl, ?_⟩
    unfold sizeofAnnTerms at h
    cases h
    rfl
  | cons a rest ih =>
    cases a with
    | var_len_array lf =>
      right
      unfold sizeofAnnTerms at h
      rcases hcheck : (if m.is_nested_type then hasVlaOf api m.nested_type_name
                      else Except.ok false) with er | b <;> rw [hcheck] at h
      · cases h
      · cases b with
        | true => cases h
        | false =>
          rcases hmt : get_member_type api m true with er | et <;> rw [hmt] at h
          · cases h
          · rcases hrest : sizeofAnnTerms api t m rest with er | ts' <;> rw [hrest] at h
            · cases h
            · cases h
              have hcount : (Annot.var_len_array lf :: rest).countP isVlaAnnot =
                  rest.countP isVlaAnnot + 1 := by
                simp [List.countP_cons, isVlaAnnot]
              have hzero : rest.countP isVlaAnnot = 0 := by
                rw [hcount] at hwf
                omega
              have hany : rest.any isVlaAnnot = false := by
                rw [List.any_eq_false]
                intro x hx
                have := List.countP_eq_zero.mp hzero x hx
                simpa using this
              have hnil : sizeofAnnTerms api t m rest = .ok [] :=
                sizeofAnnTerms_novla api t m rest hany
              rw [hnil] at hrest
              cases hrest
              exact ⟨lf, et, rfl, rfl, rfl⟩
    | rename_type ov =>
      have hwf' : rest.countP isVlaAnnot ≤ 1 := by
        simpa [List.countP_cons, isVlaAnnot] using hwf
      simpa [firstVlaField] using ih ts (by simpa [sizeofAnnTerms] using h) hwf'
    | rewrite_type ov =>
      have hwf' : rest.countP isVlaAnnot ≤ 1 := by
        simpa [List.countP_cons, isVlaAnnot] using hwf
      simpa [firstVlaField] using ih ts (by simpa [sizeofAnnTerms] using h) hwf'
    | fixed_value v =>
      have hwf' : rest.countP isVlaAnnot ≤ 1 := by
        simpa [List.countP_cons, isVlaAnnot] using hwf
      simpa [firstVlaField] using ih ts (by simpa [sizeofAnnTerms] using h) hwf'
    | union_variant d mp =>
      have hwf' : rest.countP isVlaAnnot ≤ 1 := by
        simpa [List.countP_cons, isVlaAnnot] using hwf
      simpa [firstVlaField] using ih ts (by simpa [sizeofAnnTerms] using h) hwf'
    | enum =>
      have hwf' : rest.countP isVlaAnnot ≤ 1 := by
        simpa [List.countP_cons, isVlaAnnot] using hwf
      simpa [firstVlaField] using ih ts (by simpa [sizeofAnnTerms] using h) hwf'

/-- The addend sum of the whole member loop equals the sum of the per-member
contributions of the spec formula. -/
theorem sizeofMembersTerms_sum (api : Api) (t : String) (sz inst : String → Nat)
    (ms : List MemberInfo) (terms : List (String × String))
    (h : sizeofMembersTerms api t ms = .ok terms)
    (hwf : ∀ m ∈ ms, m.annotations.countP isVlaAnnot ≤ 1) :
    termsSum sz inst terms = (ms.map (specMemberContribution api sz inst)).sum := by
  induction ms generalizing terms with
  | nil =>
    unfold sizeofMembersTerms at h
    cases h
    rfl
  | cons m rest ih =>
    unfold sizeofMembersTerms at h
    rcases hm : sizeofAnnTerms api t m m.annotations with er | ts <;> rw [hm] at h
    · cases h
    · rcases hr : sizeofMembersTerms api t rest with er | terms' <;> rw [hr] at h
      · cases h
      · cases h
        have hrest := ih terms' hr (fun x hx => hwf x (List.mem_cons_of_mem m hx))
        have hshape := sizeofAnnTerms_ok_shape api t m m.annotations ts hm
          (hwf m (List.mem_cons_self m rest))
        rcases hshape with ⟨hnone, hts⟩ | ⟨lf, et, hfirst, hmt, hts⟩
        · subst hts
          simp [termsSum, specMemberContribution, hnone, List.sum_cons] at hrest ⊢
          exact hrest
        · subst hts
          have hgetd : ((Except.ok et : Except GenError String)).toOption.getD "" = et := rfl
          simp only [termsSum, List.map_append, List.sum_append, List.map_cons,
            List.map_nil, List.sum_cons, List.sum_nil, List.map_cons,
            specMemberContribution, hfirst, hmt, hgetd] at hrest ⊢
          omega

/-- Inversion of a successful generation producing a sizeof function. -/
theorem genChppSizeofFunction_ok_inv (api : Api) (t : String) (e : TypeEntry)
    (f : SizeofFn) (he : lookupG api.structs_and_unions t = some e)
    (h : genChppSizeofFunction api t = .ok (some f)) :
    e.has_vla_member = true ∧
    get_chpp_type_from_chre api t = .ok f.chppTypeName ∧
    sizeofMembersTerms api t e.members = .ok f.terms := by
  unfold genChppSizeofFunction at h
  simp only [he] at h
  cases hb : e.has_vla_member with
  | false => simp [hb] at h
  | true =>
    rw [if_neg (by rw [hb]; simp)] at h
    rcases hs : stripPrefixAndService api t with er | core <;> simp only [hs] at h
    · simp at h
    · rcases hc : get_chpp_type_from_chre api t with er | cn <;> simp only [hc] at h
      · simp at h
      · rcases hm : sizeofMembersTerms api t e.members with er | terms <;>
          simp only [hm] at h
        · simp at h
        · have h2 : some ({ chppTypeName := cn, terms := terms } : SizeofFn) = some f := by
            simpa using h
          have h3 : ({ chppTypeName := cn, terms := terms } : SizeofFn) = f := by
            injection h2
          subst h3
          exact ⟨rfl, rfl, rfl⟩

/-- Claim C6: for a type with no variable-length member no sizeof function
is generated (the emitted size expression is the plain `sizeof` of the
generated layout), and for a type with variable-length members the value of
the generated sizeof function on any instance is the static size of the
generated layout plus the sum, over direct `var_len_array` members, of the
instance's length-field value times the element's encoded size. -/
theorem C6_size_function (api : Api) (sz inst : String → Nat) (t : String)
    (e : TypeEntry) (he : lookupG api.structs_and_unions t = some e)
    (hwf : ∀ m ∈ e.members, m.annotations.countP isVlaAnnot ≤ 1) :
    (e.has_vla_member = false →
      genChppSizeofFunction api t = .ok none ∧
      ∀ cn, get_chpp_type_from_chre api t = .ok cn →
        getChppSizeofCall api t = .ok ("sizeof(" ++ cn ++ ")")) ∧
    (∀ f, genChppSizeofFunction api t = .ok (some f) →
      sizeofFnValue sz f inst =
        sz f.chppTypeName + (e.members.map (specMemberContribution api sz inst)).sum) := by
  constructor
  · intro hfalse
    constructor
    · simp [genChppSizeofFunction, he, hfalse]
    · intro cn hcn
      simp [getChppSizeofCall, he, hfalse, hcn]
  · intro f hf
    obtain ⟨-, -, hterms⟩ := genChppSizeofFunction_ok_inv api t e f he hf
    rw [sizeofFnValue_eq]
    rw [sizeofMembersTerms_sum api t sz inst e.members f.terms hterms hwf]

/-- Example entry for claim C6: a counted variable-length array of
`uint32_t` elements. -/
def c6Entry : TypeEntry :=
  { appears_in := [], dependencies := [], has_vla_member := true,
    members :=
      [{ name := "count", type := { type_spec := "uint32_t", declarators := [] },
         annotations := [], is_nested_type := false, nested_type_name := "" },
       { name := "items", type := { type_spec := "uint32_t", declarators := [Declarator.ptr] },
         annotations := [Annot.var_len_array "count"], is_nested_type := false,
         nested_type_name := "" }],
    is_union := false }

/-- Code generator state for the C6 example. -/
def c6Api : Api :=
  { structs_and_unions := [("chreWwanX", c6Entry)],
    annotations := fun _ _ => [], service_name := "wwan" }

/-- Example compiler size assignment. -/
def c6Sz : String → Nat :=
  fun s => if s = "struct ChppWwanX" then 16 else if s = "uint32_t" then 4 else 1

/-- Example instance with three elements in the array. -/
def c6Inst : String → Nat := fun s => if s = "count" then 3 else 0

/-- The sizeof function the generator emits for the C6 example. -/
def c6Fn : SizeofFn :=
  ((genChppSizeofFunction c6Api "chreWwanX").toOption.getD none).getD
    { chppTypeName := "", terms := [] }

/-- Claim C6, witness: the theorem applied to the concrete example; the
generated function's value equals static size plus the per-member spec
contributions. -/
theorem C6_witness :
    sizeofFnValue c6Sz c6Fn c6Inst =
      c6Sz c6Fn.chppTypeName +
        (c6Entry.members.map (specMemberContribution c6Api c6Sz c6Inst)).sum :=
  (C6_size_function c6Api c6Sz c6Inst "chreWwanX" c6Entry (by rfl) (by decide)).2
    c6Fn (by rfl)

/-- A member is a nested variable-length-array member when it carries a
`var_len_array` record and its own element type is a nested type whose
entry carries variable-length data. -/
def nestedVlaMember (api : Api) (m : MemberInfo) : Prop :=
  m.annotations.any isVlaAnnot = true ∧ m.is_nested_type = true ∧
  hasVlaOf api m.nested_type_name = .ok true

/-- Decidable equality of generation results. -/
instance exceptDecEq {e a : Type} [DecidableEq e] [DecidableEq a] :
    DecidableEq (Except e a) := fun x y =>
  match x, y with
  | .error a1, .error a2 =>
    if h : a1 = a2 then isTrue (by rw [h]) else isFalse (by intro hc; cases hc; exact h rfl)
  | .ok a1, .ok a2 =>
    if h : a1 = a2 then isTrue (by rw [h]) else isFalse (by intro hc; cases hc; exact h rfl)
  | .error _, .ok _ => isFalse (by intro hc; cases hc)
  | .ok _, .error _ => isFalse (by intro hc; cases hc)

instance nestedVlaMemberDecidable (api : Api) (m : MemberInfo) :
    Decidable (nestedVlaMember api m) :=
  decidable_of_iff (m.annotations.any isVlaAnnot = true ∧ m.is_nested_type = true ∧
    hasVlaOf api m.nested_type_name = .ok true) Iff.rfl

/-- The CHPP namer never produces the nested-VLA error. -/
theorem get_chpp_type_ne_nestedVla (api : Api) (n a b : String) :
    get_chpp_type_from_chre api n ≠ .error (.nestedVla a b) := by
  unfold get_chpp_type_from_chre
  rcases hk : structOrUnionKeyword api n with er | kw
  · unfold structOrUnionKeyword at hk
    rcases hl : lookupG api.structs_and_unions n with - | e <;> rw [hl] at hk
    · cases hk
      simp
    · cases hk
  · rcases hr : typeLevelRename (api.annotations n ".") with - | ov
    · by_cases hs : pyStartsWith n "chre" = true
      · simp [hs]
      · simp [hs]
    · simp

/-- Member-type resolution never produces the nested-VLA error. -/
theorem get_member_type_ne_nestedVla (api : Api) (m : MemberInfo) (u : Bool)
    (a b : String) : get_member_type api m u ≠ .error (.nestedVla a b) := by
  unfold get_member_type
  rcases ho : memberTypeOverride u m.annotations with - | s
  · by_cases hp : u = false ∧ m.type.declarators.head? = some Declarator.ptr
    · simp [hp]
    · rw [if_neg hp]
      by_cases hn : m.is_nested_type = true
      · simp only [hn, if_pos rfl]
        exact get_chpp_type_ne_nestedVla api m.nested_type_name a b
      · simp [hn]
  · simp

/-- The nested-type flag check can only fail with a key error. -/
theorem hasVlaOf_error_inv (api : Api) (n : String) (er : GenError)
    (h : hasVlaOf api n = .error er) : ∃ c, er = .keyError c := by
  unfold hasVlaOf at h
  rcases hl : lookupG api.structs_and_unions n with - | e <;> rw [hl] at h
  · cases h
    exact ⟨n, rfl⟩
  · cases h

/-- Inversion: a nested-VLA error from the annotation loop pins down the
member as a nested variable-length-array member and names it together with
the containing type. -/
theorem sizeofAnnTerms_error_inv (api : Api) (t : String) (m : MemberInfo)
    (anns : List Annot) (a b : String)
    (h : sizeofAnnTerms api t m anns = .error (.nestedVla a b)) :
    m.is_nested_type = true ∧ hasVlaOf api m.nested_type_name = .ok true ∧
    anns.any isVlaAnnot = true ∧ a = m.name ∧ b = t := by
  induction anns with
  | nil =>
    unfold sizeofAnnTerms at h
    cases h
  | cons an rest ih =>
    cases an with
    | var_len_array lf =>
      unfold sizeofAnnTerms at h
      cases hn : m.is_nested_type with
      | false =>
        simp only [hn, Bool.false_eq_true, if_neg] at h
        rw [if_neg (by simp)] at h
        rcases hmt : get_member_type api m true with er | et <;> rw [hmt] at h
        · cases h
          exact absurd hmt (get_member_type_ne_nestedVla api m true a b)
        · rcases hrest : sizeofAnnTerms api t m rest with er | ts <;> rw [hrest] at h
          · cases h
            obtain ⟨h1, h2, h3, h4, h5⟩ := ih hrest
            rw [h1] at hn
            cases hn
          · cases h
      | true =>
        rw [if_pos (by rw [hn])] at h
        rcases hv : hasVlaOf api m.nested_type_name with er | bv <;> rw [hv] at h
        · cases h
          obtain ⟨c, hc⟩ := hasVlaOf_error_inv api m.nested_type_name _ hv
          cases hc
        · cases bv with
          | true =>
            cases h
            exact ⟨rfl, rfl, by simp [List.any_cons, isVlaAnnot], rfl, rfl⟩
          | false =>
            rcases hmt : get_member_type api m true with er | et <;> rw [hmt] at h
            · cases h
              exact absurd hmt (get_member_type_ne_nestedVla api m true a b)
            · rcases hrest : sizeofAnnTerms api t m rest with er | ts <;> rw [hrest] at h
              · cases h
                obtain ⟨h1, h2, h3, h4, h5⟩ := ih hrest
                rw [h2] at hv
                cases hv
              · cases h
    | rename_type ov =>
      obtain ⟨h1, h2, h3, h4, h5⟩ := ih (by simpa [sizeofAnnTerms] using h)
      exact ⟨h1, h2, by simp [List.any_cons, h3], h4, h5⟩
    | rewrite_type ov =>
      obtain ⟨h1, h2, h3, h4, h5⟩ := ih (by simpa [sizeofAnnTerms] using h)
      exact ⟨h1, h2, by simp [List.any_cons, h3], h4, h5⟩
    | fixed_value v =>
      obtain ⟨h1, h2, h3, h4, h5⟩ := ih (by simpa [sizeofAnnTerms] using h)
      exact ⟨h1, h2, by simp [List.any_cons, h3], h4, h5⟩
    | union_variant d mp =>
      obtain ⟨h1, h2, h3, h4, h5⟩ := ih (by simpa [sizeofAnnTerms] using h)
      exact ⟨h1, h2, by simp [List.any_cons, h3], h4, h5⟩
    | enum =>
      obtain ⟨h1, h2, h3, h4, h5⟩ := ih (by simpa [sizeofAnnTerms] using h)
      exact ⟨h1, h2, by simp [List.any_cons, h3], h4, h5⟩

/-- A nested variable-length-array member makes its annotation loop fail
with the nested-VLA error naming the member. -/
theorem sizeofAnnTerms_error_of_nested (api : Api) (t : String) (m : MemberInfo)
    (anns : List Annot) (hany : anns.any isVlaAnnot = true)
    (hn : m.is_nested_type = true)
    (hv : hasVlaOf api m.nested_type_name = .ok true) :
    sizeofAnnTerms api t m anns = .error (.nestedVla m.name t) := by
  induction anns with
  | nil => cases hany
  | cons an rest ih =>
    cases an with
    | var_len_array lf =>
      unfold sizeofAnnTerms
      rw [if_pos (by rw [hn])]
      rw [hv]
    | rename_type ov =>
      have : rest.any isVlaAnnot = true := by simpa [List.any_cons, isVlaAnnot] using hany
      simpa [sizeofAnnTerms] using ih this
    | rewrite_type ov =>
      have : rest.any isVlaAnnot = true := by simpa [List.any_cons, isVlaAnnot] using hany
      simpa [sizeofAnnTerms] using ih this
    | fixed_value v =>
      have : rest.any isVlaAnnot = true := by simpa [List.any_cons, isVlaAnnot] using hany
      simpa [sizeofAnnTerms] using ih this
    | union_variant d mp =>
      have : rest.any isVlaAnnot = true := by simpa [List.any_cons, isVlaAnnot] using hany
      simpa [sizeofAnnTerms] using ih this
    | enum =>
      have : rest.any isVlaAnnot = true := by simpa [List.any_cons, isVlaAnnot] using hany
      simpa [sizeofAnnTerms] using ih this

/-- A member that is not a nested variable-length-array member has a
successful annotation loop, provided its nested flag check and element type
resolve. -/
theorem sizeofAnnTerms_ok_exists (api : Api) (t : String) (m : MemberInfo)
    (anns : List Annot)
    (hnv : m.is_nested_type = true → hasVlaOf api m.nested_type_name = .ok false)
    (hmt : isOkE (get_member_type api m true) = true) :
    ∃ ts, sizeofAnnTerms api t m anns = .ok ts := by
  induction anns with
  | nil => exact ⟨[], rfl⟩
  | cons an rest ih =>
    obtain ⟨ts, hts⟩ := ih
    obtain ⟨et, het⟩ := isOkE_exists hmt
    cases an with
    | var_len_array lf =>
      refine ⟨(lf, et) :: ts, ?_⟩
      unfold sizeofAnnTerms
      cases hn : m.is_nested_type with
      | false =>
        rw [het, hts]
        rfl
      | true =>
        rw [hnv hn, het, hts]
        rfl
    | rename_type ov => exact ⟨ts, by simpa [sizeofAnnTerms] using hts⟩
    | rewrite_type ov => exact ⟨ts, by simpa [sizeofAnnTerms] using hts⟩
    | fixed_value v => exact ⟨ts, by simpa [sizeofAnnTerms] using hts⟩
    | union_variant d mp => exact ⟨ts, by simpa [sizeofAnnTerms] using hts⟩
    | enum => exact ⟨ts, by simpa [sizeofAnnTerms] using hts⟩

/-- A nested-VLA error of the member loop comes from some member's
annotation loop. -/
theorem sizeofMembersTerms_error_inv (api : Api) (t : String)
    (ms : List MemberInfo) (a b : String)
    (h : sizeofMembersTerms api t ms = .error (.nestedVla a b)) :
    ∃ m ∈ ms, sizeofAnnTerms api t m m.annotations = .error (.nestedVla a b) := by
  induction ms with
  | nil =>
    unfold sizeofMembersTerms at h
    cases h
  | cons m rest ih =>
    unfold sizeofMembersTerms at h
    rcases hm : sizeofAnnTerms api t m m.annotations with er | ts <;> rw [hm] at h
    · cases h
      exact ⟨m, List.mem_cons_self m rest, hm⟩
    · rcases hr : sizeofMembersTerms api t rest with er | terms <;> rw [hr] at h
      · cases h
        obtain ⟨m', hm', he'⟩ := ih hr
        exact ⟨m', List.mem_cons_of_mem m hm', he'⟩
      · cases h

/-- When the members contain a nested variable-length-array member (and the
remaining members resolve), the member loop fails with the nested-VLA error
naming one of them. -/
theorem sizeofMembersTerms_error_of_mem (api : Api) (t : String)
    (ms : List MemberInfo)
    (hres : ∀ m ∈ ms, m.is_nested_type = true →
      isOkE (hasVlaOf api m.nested_type_name) = true)
    (hmt : ∀ m ∈ ms, isOkE (get_member_type api m true) = true)
    (hex : ∃ m ∈ ms, nestedVlaMember api m) :
    ∃ mn, sizeofMembersTerms api t ms = .error (.nestedVla mn t) := by
  induction ms with
  | nil =>
    obtain ⟨m, hm, -⟩ := hex
    cases hm
  | cons m rest ih =>
    by_cases hnm : nestedVlaMember api m
    · obtain ⟨h1, h2, h3⟩ := hnm
      refine ⟨m.name, ?_⟩
      unfold sizeofMembersTerms
      rw [sizeofAnnTerms_error_of_nested api t m m.annotations h1 h2 h3]
    · have hok : ∃ ts, sizeofAnnTerms api t m m.annotations = .ok ts := by
        cases hany : m.annotations.any isVlaAnnot with
        | false => exact ⟨[], sizeofAnnTerms_novla api t m m.annotations hany⟩
        | true =>
          refine sizeofAnnTerms_ok_exists api t m m.annotations ?_
            (hmt m (List.mem_cons_self m rest))
          intro hn
          obtain ⟨bv, hbv⟩ :=
            isOkE_exists (hres m (List.mem_cons_self m rest) hn)
          cases bv with
          | true => exact absurd ⟨hany, hn, hbv⟩ hnm
          | false => exact hbv
      obtain ⟨ts, hts⟩ := hok
      have hex' : ∃ m' ∈ rest, nestedVlaMember api m' := by
        obtain ⟨m', hm', hnm'⟩ := hex
        rcases List.mem_cons.mp hm' with hhd | htl
        · exact absurd (hhd ▸ hnm') hnm
        · exact ⟨m', htl, hnm'⟩
      obtain ⟨mn, hmn⟩ := ih
        (fun x hx => hres x (List.mem_cons_of_mem m hx))
        (fun x hx => hmt x (List.mem_cons_of_mem m hx)) hex'
      refine ⟨mn, ?_⟩
      unfold sizeofMembersTerms
      rw [hts, hmn]

/-- When no member is a nested variable-length-array member (and all
members resolve), the member loop succeeds. -/
theorem sizeofMembersTerms_ok_of_none (api : Api) (t : String)
    (ms : List MemberInfo)
    (hres : ∀ m ∈ ms, m.is_nested_type = true →
      isOkE (hasVlaOf api m.nested_type_name) = true)
    (hmt : ∀ m ∈ ms, isOkE (get_member_type api m true) = true)
    (hnone : ¬ ∃ m ∈ ms, nestedVlaMember api m) :
    ∃ terms, sizeofMembersTerms api t ms = .ok terms := by
  induction ms with
  | nil => exact ⟨[], rfl⟩
  | cons m rest ih =>
    have hnm : ¬ nestedVlaMember api m :=
      fun hc => hnone ⟨m, List.mem_cons_self m rest, hc⟩
    have hok : ∃ ts, sizeofAnnTerms api t m m.annotations = .ok ts := by
      cases hany : m.annotations.any isVlaAnnot with
      | false => exact ⟨[], sizeofAnnTerms_novla api t m m.annotations hany⟩
      | true =>
        refine sizeofAnnTerms_ok_exists api t m m.annotations ?_
          (hmt m (List.mem_cons_self m rest))
        intro hn
        obtain ⟨bv, hbv⟩ := isOkE_exists (hres m (List.mem_cons_self m rest) hn)
        cases bv with
        | true => exact absurd ⟨hany, hn, hbv⟩ hnm
        | false => exact hbv
    obtain ⟨ts, hts⟩ := hok
    obtain ⟨terms, hterms⟩ := ih
      (fun x hx => hres x (List.mem_cons_of_mem m hx))
      (fun x hx => hmt x (List.mem_cons_of_mem m hx))
      (fun hc => hnone (by obtain ⟨m', hm', h'⟩ := hc; exact ⟨m', List.mem_cons_of_mem m hm', h'⟩))
    refine ⟨ts ++ terms, ?_⟩
    unfold sizeofMembersTerms
    rw [hts, hterms]

/-- Claim C7: for a variable-length root whose names and member element
types resolve, sizeof-function generation fails with the nested-VLA error —
naming an offending member and the containing type — exactly when some
`var_len_array` member's own element type is itself a variable-length type;
otherwise generation proceeds and produces a function. -/
theorem C7_nested_vla (api : Api) (t : String) (e : TypeEntry)
    (he : lookupG api.structs_and_unions t = some e)
    (hv : e.has_vla_member = true)
    (hstrip : isOkE (stripPrefixAndService api t) = true)
    (hcn : isOkE (get_chpp_type_from_chre api t) = true)
    (hres : ∀ m ∈ e.members, m.is_nested_type = true →
      isOkE (hasVlaOf api m.nested_type_name) = true)
    (hmt : ∀ m ∈ e.members, isOkE (get_member_type api m true) = true) :
    ((∃ m ∈ e.members, nestedVlaMember api m) ↔
      ∃ mn, genChppSizeofFunction api t = .error (.nestedVla mn t)) ∧
    (∀ mn, genChppSizeofFunction api t = .error (.nestedVla mn t) →
      ∃ m ∈ e.members, nestedVlaMember api m ∧ mn = m.name) ∧
    ((¬ ∃ m ∈ e.members, nestedVlaMember api m) →
      ∃ f, genChppSizeofFunction api t = .ok (some f)) := by
  obtain ⟨core, hcore⟩ := isOkE_exists hstrip
  obtain ⟨cn, hcnv⟩ := isOkE_exists hcn
  have hinv : ∀ mn, genChppSizeofFunction api t = .error (.nestedVla mn t) →
      ∃ m ∈ e.members, nestedVlaMember api m ∧ mn = m.name := by
    intro mn h
    unfold genChppSizeofFunction at h
    simp only [he] at h
    rw [if_neg (by rw [hv]; simp)] at h
    simp only [hcore, hcnv] at h
    rcases hm : sizeofMembersTerms api t e.members with er | terms <;>
      simp only [hm] at h
    · have her : er = .nestedVla mn t := by
        have := h
        simp at this
        exact this
      rw [her] at hm
      obtain ⟨m, hmem, herr⟩ := sizeofMembersTerms_error_inv api t e.members mn t hm
      obtain ⟨h1, h2, h3, h4, -⟩ := sizeofAnnTerms_error_inv api t m m.annotations mn t herr
      exact ⟨m, hmem, ⟨h3, h1, h2⟩, h4⟩
    · simp at h
  refine ⟨⟨?_, ?_⟩, hinv, ?_⟩
  · intro hex
    obtain ⟨mn, hmn⟩ := sizeofMembersTerms_error_of_mem api t e.members hres hmt hex
    refine ⟨mn, ?_⟩
    simp [genChppSizeofFunction, he, hv, hcore, hcnv, hmn]
  · intro ⟨mn, hmn⟩
    obtain ⟨m, hmem, hnm, -⟩ := hinv mn hmn
    exact ⟨m, hmem, hnm⟩
  · intro hnone
    obtain ⟨terms, hterms⟩ :=
      sizeofMembersTerms_ok_of_none api t e.members hres hmt hnone
    refine ⟨{ chppTypeName := cn, terms := terms }, ?_⟩
    simp [genChppSizeofFunction, he, hv, hcore, hcnv, hterms]

/-- Inner type of the C7 example, itself carrying variable-length data. -/
def c7Inner : TypeEntry :=
  { appears_in := [], dependencies := [], has_vla_member := true,
    members := [], is_union := false }

/-- Outer type of the C7 example: a `var_len_array` member whose element
type is the variable-length inner type. -/
def c7Entry : TypeEntry :=
  { appears_in := [], dependencies := ["chreWwanZ"], has_vla_member := true,
    members :=
      [{ name := "arr", type := { type_spec := "struct chreWwanZ", declarators := [Declarator.ptr] },
         annotations := [Annot.var_len_array "n"], is_nested_type := true,
         nested_type_name := "chreWwanZ" }],
    is_union := false }

/-- Code generator state for the C7 example. -/
def c7Api : Api :=
  { structs_and_unions := [("chreWwanY", c7Entry), ("chreWwanZ", c7Inner)],
    annotations := fun _ _ => [], service_name := "wwan" }

/-- Claim C7, witness: the nested example makes generation fail with the
nested-VLA error naming the containing type. -/
theorem C7_witness :
    ∃ mn, genChppSizeofFunction c7Api "chreWwanY" = .error (.nestedVla mn "chreWwanY") :=
  (C7_nested_vla c7Api "chreWwanY" c7Entry (by rfl) (by rfl) (by rfl) (by rfl)
    (by decide) (by decide)).1.mp (by decide)

/-! ## Claim C4: the variable-length fixed point

The remainder of the development proves that after
`_parse_structs_and_unions` finishes, the `has_vla_member` flag of every
type is true exactly when some type reachable from it through dependency
edges (itself included) has a member carrying a `var_len_array` record.
The proof follows the three phases of the source: invariants of the
work-list discovery, the characterization of the reverse edges, and
soundness plus completeness of the flag propagation work-list. -/

/-- Lookup after a key-targeted entry update. -/
theorem lookupG_mapIf (f : TypeEntry → TypeEntry) (g : Graph) (t n : String) :
    lookupG (g.map (fun p => if p.1 = t then (p.1, f p.2) else p)) n =
      if n = t then (lookupG g n).map f else lookupG g n := by
  induction g with
  | nil => by_cases h : n = t <;> simp [lookupG, h]
  | cons p rest ih =>
    by_cases hpt : p.1 = t
    · by_cases hnp : n = p.1
      · simp [lookupG, hpt, hnp, hnp.trans hpt]
      · have hnt : n ≠ t := fun hc => hnp (hc.trans hpt.symm)
        simp only [List.map_cons, if_pos hpt, lookupG, if_neg hnp]
        rw [ih, if_neg hnt]
    · by_cases hnp : n = p.1
      · have hnt : n ≠ t := fun hc => hpt (hnp.symm.trans hc)
        simp [lookupG, hpt, hnp, hnt]
      · simp only [List.map_cons, if_neg hpt, lookupG, if_neg hnp]
        exact ih

/-- Keys are unchanged by a key-targeted entry update. -/
theorem keysOf_mapIf (f : TypeEntry → TypeEntry) (g : Graph) (t : String) :
    keysOf (g.map (fun p => if p.1 = t then (p.1, f p.2) else p)) = keysOf g := by
  induction g with
  | nil => rfl
  | cons p rest ih =>
    by_cases hpt : p.1 = t <;> simp [keysOf, hpt] at ih ⊢ <;> exact ih

/-- A key is in the key list exactly when lookup succeeds. -/
theorem mem_keysOf_iff (g : Graph) (n : String) :
    n ∈ keysOf g ↔ ∃ e, lookupG g n = some e := by
  induction g with
  | nil => simp [keysOf, lookupG]
  | cons p rest ih =>
    by_cases hnp : n = p.1
    · simp [keysOf, lookupG, hnp]
    · simp only [keysOf, List.map_cons, List.mem_cons, lookupG, if_neg hnp]
      rw [← keysOf]
      simp [hnp, ih]

/-- A successful lookup yields a pair of the list. -/
theorem lookupG_some_mem (g : Graph) (n : String) (e : TypeEntry)
    (h : lookupG g n = some e) : (n, e) ∈ g := by
  induction g with
  | nil => cases h
  | cons p rest ih =>
    by_cases hnp : n = p.1
    · rw [lookupG, if_pos hnp] at h
      cases h
      subst hnp
      exact List.mem_cons_self _ _
    · rw [lookupG, if_neg hnp] at h
      exact List.mem_cons_of_mem p (ih h)

/-- With duplicate-free keys, membership and lookup agree. -/
theorem mem_lookupG_of_nodup (g : Graph) (n : String) (e : TypeEntry)
    (hnd : (keysOf g).Nodup) (h : (n, e) ∈ g) : lookupG g n = some e := by
  induction g with
  | nil => cases h
  | cons p rest ih =>
    have hnd' : p.1 ∉ keysOf rest ∧ (keysOf rest).Nodup := by
      rw [keysOf, List.map_cons, List.nodup_cons] at hnd
      exact hnd
    rcases List.mem_cons.mp h with hhd | htl
    · rw [← hhd]
      simp [lookupG]
    · have hnp : n ≠ p.1 := by
        intro hc
        apply hnd'.1
        have hmem : n ∈ keysOf rest := List.mem_map_of_mem Prod.fst htl
        rw [← hc]
        exact hmem
      rw [lookupG, if_neg hnp]
      exact ih hnd'.2 htl

/-- Membership in the modelled set insertion. -/
theorem mem_addSet (l : List String) (y x : String) :
    x ∈ addSet l y ↔ x ∈ l ∨ x = y := by
  unfold addSet
  by_cases h : y ∈ l
  · rw [if_pos h]
    exact ⟨Or.inl, fun hc => hc.elim id (fun he => he ▸ h)⟩
  · rw [if_neg h]
    simp

/-- Lookup after setting a flag. -/
theorem lookupG_setVla (g : Graph) (t n : String) :
    lookupG (setVla g t) n =
      if n = t then (lookupG g n).map (fun e => { e with has_vla_member := true })
      else lookupG g n :=
  lookupG_mapIf (fun e => { e with has_vla_member := true }) g t n

/-- Keys survive a flag set. -/
theorem keysOf_setVla (g : Graph) (t : String) : keysOf (setVla g t) = keysOf g :=
  keysOf_mapIf (fun e => { e with has_vla_member := true }) g t

/-- Dependencies survive a flag set. -/
theorem depsOf_setVla (g : Graph) (t n : String) : depsOf (setVla g t) n = depsOf g n := by
  unfold depsOf
  rw [lookupG_setVla]
  by_cases h : n = t
  · rw [if_pos h]
    cases lookupG g n <;> rfl
  · rw [if_neg h]

/-- Reverse edges survive a flag set. -/
theorem appearsOf_setVla (g : Graph) (t n : String) :
    appearsOf (setVla g t) n = appearsOf g n := by
  unfold appearsOf
  rw [lookupG_setVla]
  by_cases h : n = t
  · rw [if_pos h]
    cases lookupG g n <;> rfl
  · rw [if_neg h]

/-- The direct variable-length condition survives a flag set. -/
theorem directVlaOf_setVla (g : Graph) (t n : String) :
    directVlaOf (setVla g t) n = directVlaOf g n := by
  unfold directVlaOf
  rw [lookupG_setVla]
  by_cases h : n = t
  · rw [if_pos h]
    cases lookupG g n <;> rfl
  · rw [if_neg h]

/-- A flag set does not change other flags. -/
theorem vlaOf_setVla_ne (g : Graph) (t n : String) (h : n ≠ t) :
    vlaOf (setVla g t) n = vlaOf g n := by
  unfold vlaOf
  rw [lookupG_setVla, if_neg h]

/-- Setting the flag of a present key makes it true. -/
theorem vlaOf_setVla_self (g : Graph) (t : String) (h : t ∈ keysOf g) :
    vlaOf (setVla g t) t = true := by
  obtain ⟨e, he⟩ := (mem_keysOf_iff g t).mp h
  unfold vlaOf
  rw [lookupG_setVla, if_pos rfl, he]
  rfl

/-- A flag set never clears a flag. -/
theorem vlaOf_setVla_mono (g : Graph) (t n : String) (h : vlaOf g n = true) :
    vlaOf (setVla g t) n = true := by
  unfold vlaOf at h ⊢
  rw [lookupG_setVla]
  by_cases hnt : n = t
  · rw [if_pos hnt]
    rcases he : lookupG g n with - | e
    · rw [he] at h
      cases h
    · rfl
  · rw [if_neg hnt]
    exact h

/-- A flag true after a flag set was either just set or already true. -/
theorem vlaOf_setVla_inv (g : Graph) (t n : String)
    (h : vlaOf (setVla g t) n = true) : n = t ∨ vlaOf g n = true := by
  by_cases hnt : n = t
  · exact Or.inl hnt
  · right
    rw [vlaOf_setVla_ne g t n hnt] at h
    exact h

/-- Lookup after a reverse-edge insertion. -/
theorem lookupG_addAppear (g : Graph) (d m n : String) :
    lookupG (addAppear g d m) n =
      if n = d then (lookupG g n).map (fun e => { e with appears_in := addSet e.appears_in m })
      else lookupG g n :=
  lookupG_mapIf (fun e => { e with appears_in := addSet e.appears_in m }) g d n

/-- Keys survive a reverse-edge insertion. -/
theorem keysOf_addAppear (g : Graph) (d m : String) :
    keysOf (addAppear g d m) = keysOf g :=
  keysOf_mapIf (fun e => { e with appears_in := addSet e.appears_in m }) g d

/-- Dependencies survive a reverse-edge insertion. -/
theorem depsOf_addAppear (g : Graph) (d m n : String) :
    depsOf (addAppear g d m) n = depsOf g n := by
  unfold depsOf
  rw [lookupG_addAppear]
  by_cases h : n = d
  · rw [if_pos h]
    cases lookupG g n <;> rfl
  · rw [if_neg h]

/-- Flags survive a reverse-edge insertion. -/
theorem vlaOf_addAppear (g : Graph) (d m n : String) :
    vlaOf (addAppear g d m) n = vlaOf g n := by
  unfold vlaOf
  rw [lookupG_addAppear]
  by_cases h : n = d
  · rw [if_pos h]
    cases lookupG g n <;> rfl
  · rw [if_neg h]

/-- The direct variable-length condition survives a reverse-edge
insertion. -/
theorem directVlaOf_addAppear (g : Graph) (d m n : String) :
    directVlaOf (addAppear g d m) n = directVlaOf g n := by
  unfold directVlaOf
  rw [lookupG_addAppear]
  by_cases h : n = d
  · rw [if_pos h]
    cases lookupG g n <;> rfl
  · rw [if_neg h]

/-- Reverse edges of a type missing from the graph. -/
theorem appearsOf_eq_of_lookup_none (g : Graph) (n : String)
    (he : lookupG g n = none) : appearsOf g n = [] := by
  unfold appearsOf
  rw [he]

/-- Reverse edges of a present type. -/
theorem appearsOf_eq_of_lookup_some (g : Graph) (n : String) (e : TypeEntry)
    (he : lookupG g n = some e) : appearsOf g n = e.appears_in := by
  unfold appearsOf
  rw [he]

/-- Characterization of reverse edges after one insertion. -/
theorem mem_appearsOf_addAppear (g : Graph) (d m n x : String) :
    x ∈ appearsOf (addAppear g d m) n ↔
      x ∈ appearsOf g n ∨ (n = d ∧ x = m ∧ n ∈ keysOf g) := by
  by_cases h : n = d
  · rcases he : lookupG g n with - | e
    · have hk : n ∉ keysOf g := by
        rw [mem_keysOf_iff]
        rintro ⟨e, hc⟩
        rw [he] at hc
        cases hc
      have h1 : lookupG (addAppear g d m) n = none := by
        rw [lookupG_addAppear, if_pos h, he]
        rfl
      rw [appearsOf_eq_of_lookup_none _ _ h1, appearsOf_eq_of_lookup_none _ _ he]
      simp [hk]
    · have hk : n ∈ keysOf g := (mem_keysOf_iff g n).mpr ⟨e, he⟩
      have h1 : lookupG (addAppear g d m) n =
          some { e with appears_in := addSet e.appears_in m } := by
        rw [lookupG_addAppear, if_pos h, he]
        rfl
      rw [appearsOf_eq_of_lookup_some _ _ _ h1, appearsOf_eq_of_lookup_some _ _ _ he]
      show x ∈ addSet e.appears_in m ↔ _
      rw [mem_addSet]
      have hkd : d ∈ keysOf g := h ▸ hk
      simp [h, hkd]
  · have h2 : appearsOf (addAppear g d m) n = appearsOf g n := by
      unfold appearsOf
      rw [lookupG_addAppear, if_neg h]
    rw [h2]
    simp [h]

/-- Preservation of a graph observation along the inner reverse-edge
fold. -/
theorem foldl_addAppear_pres {α : Type} (P : Graph → α)
    (hstep : ∀ a d tn, P (addAppear a d tn) = P a)
    (l : List String) (tn : String) (acc : Graph) :
    P (l.foldl (fun a d => addAppear a d tn) acc) = P acc := by
  induction l generalizing acc with
  | nil => rfl
  | cons d ds ih => rw [List.foldl_cons, ih, hstep]

/-- Characterization of reverse edges after inserting one entry's
dependency edges. -/
theorem mem_appearsOf_foldDeps (deps : List String) (tn : String) (acc : Graph)
    (m x : String) :
    x ∈ appearsOf (deps.foldl (fun a d => addAppear a d tn) acc) m ↔
      x ∈ appearsOf acc m ∨ (m ∈ deps ∧ x = tn ∧ m ∈ keysOf acc) := by
  induction deps generalizing acc with
  | nil => simp
  | cons d ds ih =>
    rw [List.foldl_cons, ih (addAppear acc d tn), mem_appearsOf_addAppear,
      keysOf_addAppear]
    constructor
    · rintro ((hx | ⟨h1, h2, h3⟩) | ⟨h1, h2, h3⟩)
      · exact Or.inl hx
      · exact Or.inr ⟨by rw [h1]; exact List.mem_cons_self _ _, h2, h3⟩
      · exact Or.inr ⟨List.mem_cons_of_mem d h1, h2, h3⟩
    · rintro (hx | ⟨h1, h2, h3⟩)
      · exact Or.inl (Or.inl hx)
      · rcases List.mem_cons.mp h1 with hd | hds
        · exact Or.inl (Or.inr ⟨hd, h2, h3⟩)
        · exact Or.inr ⟨hds, h2, h3⟩

/-- Preservation of a graph observation along the outer reverse-edge
fold. -/
theorem foldl_pairs_pres {α : Type} (P : Graph → α)
    (hstep : ∀ a d tn, P (addAppear a d tn) = P a)
    (ps : List (String × TypeEntry)) (acc : Graph) :
    P (ps.foldl
        (fun acc p => p.2.dependencies.foldl (fun a d => addAppear a d p.1) acc) acc) =
      P acc := by
  induction ps generalizing acc with
  | nil => rfl
  | cons p ps ih => rw [List.foldl_cons, ih, foldl_addAppear_pres P hstep]

/-- Characterization of reverse edges after inserting the dependency edges
of a list of entries. -/
theorem mem_appearsOf_foldPairs (ps : List (String × TypeEntry)) (acc : Graph)
    (m x : String) :
    x ∈ appearsOf (ps.foldl
        (fun acc p => p.2.dependencies.foldl (fun a d => addAppear a d p.1) acc) acc) m ↔
      x ∈ appearsOf acc m ∨
        ∃ p ∈ ps, x = p.1 ∧ m ∈ p.2.dependencies ∧ m ∈ keysOf acc := by
  induction ps generalizing acc with
  | nil => simp
  | cons p ps ih =>
    rw [List.foldl_cons, ih, mem_appearsOf_foldDeps]
    rw [foldl_addAppear_pres keysOf (fun a d tn => keysOf_addAppear a d tn)]
    constructor
    · rintro ((hx | ⟨h1, h2, h3⟩) | ⟨q, hq, h1, h2, h3⟩)
      · exact Or.inl hx
      · exact Or.inr ⟨p, List.mem_cons_self _ _, h2, h1, h3⟩
      · exact Or.inr ⟨q, List.mem_cons_of_mem p hq, h1, h2, h3⟩
    · rintro (hx | ⟨q, hq, h1, h2, h3⟩)
      · exact Or.inl (Or.inl hx)
      · rcases List.mem_cons.mp hq with hd | hds
        · exact Or.inl (Or.inr ⟨hd ▸ h2, hd ▸ h1, h3⟩)
        · exact Or.inr ⟨q, hds, h1, h2, h3⟩

/-- Characterization of reverse edges after the whole reverse-edge pass. -/
theorem mem_appearsOf_addAppearsIn (g : Graph) (m x : String) :
    x ∈ appearsOf (addAppearsIn g) m ↔
      x ∈ appearsOf g m ∨
        ∃ p ∈ g, x = p.1 ∧ m ∈ p.2.dependencies ∧ m ∈ keysOf g := by
  unfold addAppearsIn
  exact mem_appearsOf_foldPairs g g m x

/-- Keys survive the reverse-edge pass. -/
theorem keysOf_addAppearsIn (g : Graph) : keysOf (addAppearsIn g) = keysOf g :=
  foldl_pairs_pres keysOf (fun a d tn => keysOf_addAppear a d tn) g g

/-- Dependencies survive the reverse-edge pass. -/
theorem depsOf_addAppearsIn (g : Graph) (n : String) :
    depsOf (addAppearsIn g) n = depsOf g n :=
  foldl_pairs_pres (fun g' => depsOf g' n) (fun a d tn => depsOf_addAppear a d tn n) g g

/-- Flags survive the reverse-edge pass. -/
theorem vlaOf_addAppearsIn (g : Graph) (n : String) :
    vlaOf (addAppearsIn g) n = vlaOf g n :=
  foldl_pairs_pres (fun g' => vlaOf g' n) (fun a d tn => vlaOf_addAppear a d tn n) g g

/-- The direct variable-length condition survives the reverse-edge pass. -/
theorem directVlaOf_addAppearsIn (g : Graph) (n : String) :
    directVlaOf (addAppearsIn g) n = directVlaOf g n :=
  foldl_pairs_pres (fun g' => directVlaOf g' n)
    (fun a d tn => directVlaOf_addAppear a d tn n) g g

/-- A list with no last element is empty. -/
theorem getLast?_none {α : Type} {l : List α} (h : l.getLast? = none) : l = [] := by
  cases l with
  | nil => rfl
  | cons a as =>
    rw [List.getLast?_eq_getLast (a :: as) (by simp)] at h
    cases h

/-- Decomposition of a list around its last element. -/
theorem getLast?_decomp {α : Type} {l : List α} {t : α} (h : l.getLast? = some t) :
    l = l.dropLast ++ [t] := by
  have hne : l ≠ [] := by
    intro he
    rw [he] at h
    cases h
  rw [List.getLast?_eq_getLast l hne] at h
  have h3 : l.getLast hne = t := by injection h
  rw [← h3]
  exact (List.dropLast_append_getLast hne).symm

/-- The propagation work-list changes no structure, only flags. -/
theorem markVla_pres (fuel : Nat) : ∀ (g g' : Graph) (wl : List String),
    markVla fuel g wl = .ok g' →
    keysOf g' = keysOf g ∧ (∀ n, depsOf g' n = depsOf g n) ∧
    (∀ n, appearsOf g' n = appearsOf g n) ∧
    (∀ n, directVlaOf g' n = directVlaOf g n) := by
  induction fuel with
  | zero => intro g g' wl h; cases h
  | succ fuel ih =>
    intro g g' wl h
    unfold markVla at h
    rcases hlast : wl.getLast? with - | t <;> simp only [hlast] at h
    · cases h
      exact ⟨rfl, fun n => rfl, fun n => rfl, fun n => rfl⟩
    · obtain ⟨h1, h2, h3, h4⟩ := ih _ _ _ h
      refine ⟨?_, fun n => ?_, fun n => ?_, fun n => ?_⟩
      · rw [h1, keysOf_setVla]
      · rw [h2 n, depsOf_setVla]
      · rw [h3 n, appearsOf_setVla]
      · rw [h4 n, directVlaOf_setVla]

/-- The propagation work-list never clears a flag. -/
theorem markVla_mono (fuel : Nat) : ∀ (g g' : Graph) (wl : List String) (n : String),
    markVla fuel g wl = .ok g' → vlaOf g n = true → vlaOf g' n = true := by
  induction fuel with
  | zero => intro g g' wl n h; cases h
  | succ fuel ih =>
    intro g g' wl n h hv
    unfold markVla at h
    rcases hlast : wl.getLast? with - | t <;> simp only [hlast] at h
    · cases h
      exact hv
    · exact ih _ _ _ n h (vlaOf_setVla_mono g t n hv)

/-- Soundness of the propagation work-list: a flag it sets belongs to a
type reachable from the work-list through reverse edges. -/
theorem markVla_sound (fuel : Nat) : ∀ (g g' : Graph) (wl : List String),
    markVla fuel g wl = .ok g' → ∀ n, vlaOf g' n = true →
    vlaOf g n = true ∨ ∃ w ∈ wl, Relation.ReflTransGen (appEdge g) w n := by
  induction fuel with
  | zero => intro g g' wl h; cases h
  | succ fuel ih =>
    intro g g' wl h n hv
    unfold markVla at h
    rcases hlast : wl.getLast? with - | t <;> simp only [hlast] at h
    · cases h
      exact Or.inl hv
    · have hdecomp := getLast?_decomp hlast
      have htw : t ∈ wl := by
        rw [hdecomp]
        exact List.mem_append_right _ (by simp)
      rcases ih _ _ _ h n hv with hv1 | ⟨w, hw, hpath⟩
      · rcases vlaOf_setVla_inv g t n hv1 with hnt | hvg
        · right
          exact ⟨t, htw, hnt ▸ Relation.ReflTransGen.refl⟩
        · exact Or.inl hvg
      · have hpath' : Relation.ReflTransGen (appEdge g) w n := by
          refine Relation.ReflTransGen.mono ?_ hpath
          intro a b hab
          unfold appEdge at hab ⊢
          rwa [appearsOf_setVla] at hab
        rcases List.mem_append.mp hw with hw1 | hw2
        · right
          refine ⟨w, ?_, hpath'⟩
          rw [hdecomp]
          exact List.mem_append_left _ hw1
        · right
          exact ⟨t, htw, Relation.ReflTransGen.head hw2 hpath'⟩

/-- Completeness of the propagation work-list: every type reachable from
the work-list through reverse edges ends up flagged. -/
theorem markVla_complete (fuel : Nat) : ∀ (g g' : Graph) (wl : List String),
    markVla fuel g wl = .ok g' →
    (∀ x y, y ∈ appearsOf g x → y ∈ keysOf g) →
    (∀ w ∈ wl, w ∈ keysOf g) →
    ∀ w ∈ wl, ∀ n, Relation.ReflTransGen (appEdge g) w n → vlaOf g' n = true := by
  induction fuel with
  | zero => intro g g' wl h; cases h
  | succ fuel ih =>
    intro g g' wl h hK hwl w hw n hpath
    unfold markVla at h
    rcases hlast : wl.getLast? with - | t <;> simp only [hlast] at h
    · rw [getLast?_none hlast] at hw
      cases hw
    · have hdecomp := getLast?_decomp hlast
      have hK1 : ∀ x y, y ∈ appearsOf (setVla g t) x → y ∈ keysOf (setVla g t) := by
        intro x y hy
        rw [keysOf_setVla]
        rw [appearsOf_setVla] at hy
        exact hK x y hy
      have hwl1 : ∀ v ∈ wl.dropLast ++ appearsOf g t, v ∈ keysOf (setVla g t) := by
        intro v hv
        rw [keysOf_setVla]
        rcases List.mem_append.mp hv with h1 | h2
        · refine hwl v ?_
          rw [hdecomp]
          exact List.mem_append_left _ h1
        · exact hK t v h2
      have hpathT : ∀ a b, Relation.ReflTransGen (appEdge g) a b →
          Relation.ReflTransGen (appEdge (setVla g t)) a b := by
        intro a b
        refine Relation.ReflTransGen.mono ?_
        intro c d hcd
        unfold appEdge at hcd ⊢
        rwa [appearsOf_setVla]
      have hwmem : w ∈ wl.dropLast ++ [t] := hdecomp ▸ hw
      rcases List.mem_append.mp hwmem with hw1 | hw2
      · exact ih _ _ _ h hK1 hwl1 w (List.mem_append_left _ hw1) n (hpathT _ _ hpath)
      · have hwt : w = t := by simpa using hw2
        subst hwt
        rcases Relation.ReflTransGen.cases_head hpath with heq | ⟨c, hc, hcpath⟩
        · have hv1 : vlaOf (setVla g w) w = true :=
            vlaOf_setVla_self g w (hwl w hw)
          rw [← heq]
          exact markVla_mono fuel _ _ _ w h hv1
        · exact ih _ _ _ h hK1 hwl1 c (List.mem_append_right _ hc) n (hpathT _ _ hcpath)

/-- Reversal of a reflexive-transitive path along flipped edges. -/
theorem rtg_reverse {α : Type} {r s : α → α → Prop}
    (h : ∀ a b, r a b → s b a) {a b : α}
    (hab : Relation.ReflTransGen r a b) : Relation.ReflTransGen s b a := by
  induction hab with
  | refl => exact Relation.ReflTransGen.refl
  | tail _ hstep ih => exact Relation.ReflTransGen.head (h _ _ hstep) ih

/-- Flag propagation changes no structure. -/
theorem propagateVla_pres (fuel : Nat) (names : List String) :
    ∀ (g G : Graph), propagateVla fuel g names = .ok G →
    keysOf G = keysOf g ∧ (∀ n, depsOf G n = depsOf g n) ∧
    (∀ n, appearsOf G n = appearsOf g n) ∧
    (∀ n, directVlaOf G n = directVlaOf g n) := by
  induction names with
  | nil =>
    intro g G h
    cases h
    exact ⟨rfl, fun n => rfl, fun n => rfl, fun n => rfl⟩
  | cons n rest ih =>
    intro g G h
    unfold propagateVla at h
    rcases hl : lookupG g n with - | e <;> simp only [hl] at h
    · exact ih g G h
    · cases hb : e.has_vla_member with
      | false =>
        rw [if_neg (by simp [hb])] at h
        exact ih g G h
      | true =>
        rw [if_pos (by rw [hb])] at h
        rcases hm : markVla fuel g e.appears_in with er | g2 <;> simp only [hm] at h
        · cases h
        · obtain ⟨m1, m2, m3, m4⟩ := markVla_pres fuel g g2 e.appears_in hm
          obtain ⟨p1, p2, p3, p4⟩ := ih g2 G h
          exact ⟨p1.trans m1, fun k => (p2 k).trans (m2 k),
            fun k => (p3 k).trans (m3 k), fun k => (p4 k).trans (m4 k)⟩

/-- Flag propagation never clears a flag. -/
theorem propagateVla_mono (fuel : Nat) (names : List String) :
    ∀ (g G : Graph) (n : String), propagateVla fuel g names = .ok G →
    vlaOf g n = true → vlaOf G n = true := by
  induction names with
  | nil =>
    intro g G n h hv
    cases h
    exact hv
  | cons k rest ih =>
    intro g G n h hv
    unfold propagateVla at h
    rcases hl : lookupG g k with - | e <;> simp only [hl] at h
    · exact ih g G n h hv
    · cases hb : e.has_vla_member with
      | false =>
        rw [if_neg (by simp [hb])] at h
        exact ih g G n h hv
      | true =>
        rw [if_pos (by rw [hb])] at h
        rcases hm : markVla fuel g e.appears_in with er | g2 <;> simp only [hm] at h
        · cases h
        · exact ih g2 G n h (markVla_mono fuel g g2 e.appears_in n hm hv)

/-- Soundness of flag propagation: every flag true at the end belongs to a
type from which a type with a direct `var_len_array` member is reachable
through dependency edges. -/
theorem propagateVla_sound (fuel : Nat) (names : List String) :
    ∀ (g G : Graph), propagateVla fuel g names = .ok G →
    (∀ a b, b ∈ appearsOf g a → a ∈ depsOf g b) →
    (∀ x, vlaOf g x = true →
      ∃ d, Relation.ReflTransGen (depEdge g) x d ∧ directVlaOf g d = true) →
    ∀ x, vlaOf G x = true →
    ∃ d, Relation.ReflTransGen (depEdge g) x d ∧ directVlaOf g d = true := by
  induction names with
  | nil =>
    intro g G h hF2 hdir x hx
    cases h
    exact hdir x hx
  | cons n rest ih =>
    intro g G h hF2 hdir x hx
    unfold propagateVla at h
    rcases hl : lookupG g n with - | e <;> simp only [hl] at h
    · exact ih g G h hF2 hdir x hx
    · cases hb : e.has_vla_member with
      | false =>
        rw [if_neg (by simp [hb])] at h
        exact ih g G h hF2 hdir x hx
      | true =>
        rw [if_pos (by rw [hb])] at h
        rcases hm : markVla fuel g e.appears_in with er | g2 <;> simp only [hm] at h
        · cases h
        · obtain ⟨m1, m2, m3, m4⟩ := markVla_pres fuel g g2 e.appears_in hm
          have hedge : ∀ a b, depEdge g a b ↔ depEdge g2 a b := by
            intro a b
            unfold depEdge
            rw [m2 a]
          have hF2' : ∀ a b, b ∈ appearsOf g2 a → a ∈ depsOf g2 b := by
            intro a b hab
            rw [m3 a] at hab
            rw [m2 b]
            exact hF2 a b hab
          have htoG2 : ∀ y, (∃ d, Relation.ReflTransGen (depEdge g) y d ∧
              directVlaOf g d = true) →
              ∃ d, Relation.ReflTransGen (depEdge g2) y d ∧ directVlaOf g2 d = true := by
            rintro y ⟨d, hp, hd⟩
            refine ⟨d, Relation.ReflTransGen.mono (fun a b hab => (hedge a b).mp hab) hp, ?_⟩
            rw [m4 d]
            exact hd
          have hdir' : ∀ y, vlaOf g2 y = true →
              ∃ d, Relation.ReflTransGen (depEdge g2) y d ∧ directVlaOf g2 d = true := by
            intro y hy
            rcases markVla_sound fuel g g2 e.appears_in hm y hy with hvg | ⟨w, hw, hpath⟩
            · exact htoG2 y (hdir y hvg)
            · have hxw : Relation.ReflTransGen (depEdge g) y w :=
                rtg_reverse (fun a b hab => hF2 a b hab) hpath
              have hw' : w ∈ appearsOf g n := by
                rw [appearsOf_eq_of_lookup_some g n e hl]
                exact hw
              have hwn : depEdge g w n := hF2 n w hw'
              have hvn : vlaOf g n = true := by
                unfold vlaOf
                rw [hl]
                exact hb
              obtain ⟨d, hnd, hdd⟩ := hdir n hvn
              refine htoG2 y ⟨d, ?_, hdd⟩
              exact Relation.ReflTransGen.trans hxw (Relation.ReflTransGen.head hwn hnd)
          obtain ⟨d, hp2, hd2⟩ := ih g2 G h hF2' hdir' x hx
          refine ⟨d, Relation.ReflTransGen.mono (fun a b hab => (hedge a b).mpr hab) hp2, ?_⟩
          rw [← m4 d]
          exact hd2

/-- Completeness of flag propagation: once the outer loop has passed a
flagged type, every type reaching it through reverse edges is flagged. -/
theorem propagateVla_complete (fuel : Nat) (names : List String) :
    ∀ (g G : Graph), propagateVla fuel g names = .ok G →
    (∀ x y, y ∈ appearsOf g x → y ∈ keysOf g) →
    ∀ d ∈ names, vlaOf g d = true →
    ∀ w ∈ appearsOf g d, ∀ x, Relation.ReflTransGen (appEdge g) w x →
    vlaOf G x = true := by
  induction names with
  | nil =>
    intro g G h hK d hd
    cases hd
  | cons n rest ih =>
    intro g G h hK d hd hvd w hw x hpath
    unfold propagateVla at h
    rcases hl : lookupG g n with - | e <;> simp only [hl] at h
    · rcases List.mem_cons.mp hd with hdn | hdr
      · exfalso
        subst hdn
        unfold vlaOf at hvd
        rw [hl] at hvd
        cases hvd
      · exact ih g G h hK d hdr hvd w hw x hpath
    · cases hb : e.has_vla_member with
      | false =>
        rw [if_neg (by simp [hb])] at h
        rcases List.mem_cons.mp hd with hdn | hdr
        · exfalso
          subst hdn
          have hvd' : e.has_vla_member = true := by
            unfold vlaOf at hvd
            rw [hl] at hvd
            exact hvd
          rw [hb] at hvd'
          cases hvd'
        · exact ih g G h hK d hdr hvd w hw x hpath
      | true =>
        rw [if_pos (by rw [hb])] at h
        rcases hm : markVla fuel g e.appears_in with er | g2 <;> simp only [hm] at h
        · cases h
        · obtain ⟨m1, m2, m3, m4⟩ := markVla_pres fuel g g2 e.appears_in hm
          have hK2 : ∀ a y, y ∈ appearsOf g2 a → y ∈ keysOf g2 := by
            intro a y hy
            rw [m3 a] at hy
            rw [m1]
            exact hK a y hy
          rcases List.mem_cons.mp hd with hdn | hdr
          · subst hdn
            have happ : appearsOf g d = e.appears_in :=
              appearsOf_eq_of_lookup_some g d e hl
            have hwl : ∀ v ∈ e.appears_in, v ∈ keysOf g := by
              intro v hv
              refine hK d v ?_
              rw [happ]
              exact hv
            have hv2 : vlaOf g2 x = true := by
              refine markVla_complete fuel g g2 e.appears_in hm hK hwl w ?_ x hpath
              rw [← happ]
              exact hw
            exact propagateVla_mono fuel rest g2 G x h hv2
          · have hv2 : vlaOf g2 d = true := markVla_mono fuel g g2 e.appears_in d hm hvd
            have hw2 : w ∈ appearsOf g2 d := by
              rw [m3 d]
              exact hw
            have hpath2 : Relation.ReflTransGen (appEdge g2) w x := by
              refine Relation.ReflTransGen.mono ?_ hpath
              intro a b hab
              unfold appEdge at hab ⊢
              rw [m3 a]
              exact hab
            exact ih g2 G h hK2 d hdr hv2 w hw2 x hpath2

/-- The member loop never touches the reverse edges. -/
theorem processMember_appears (ann : AnnIndex) (tn : String)
    (st : TypeEntry × List String) (r : String × CType) :
    (processMember ann tn st r).1.appears_in = st.1.appears_in := by
  unfold processMember
  by_cases h1 : (mkMemberInfo ann tn r).is_nested_type = true <;>
    by_cases h2 : st.1.has_vla_member = true <;> simp [h1, h2]

/-- The member loop never touches the union flag. -/
theorem processMember_isUnion (ann : AnnIndex) (tn : String)
    (st : TypeEntry × List String) (r : String × CType) :
    (processMember ann tn st r).1.is_union = st.1.is_union := by
  unfold processMember
  by_cases h1 : (mkMemberInfo ann tn r).is_nested_type = true <;>
    by_cases h2 : st.1.has_vla_member = true <;> simp [h1, h2]

/-- The member loop appends exactly the built member record. -/
theorem processMember_members (ann : AnnIndex) (tn : String)
    (st : TypeEntry × List String) (r : String × CType) :
    (processMember ann tn st r).1.members = st.1.members ++ [mkMemberInfo ann tn r] := by
  unfold processMember
  by_cases h1 : (mkMemberInfo ann tn r).is_nested_type = true <;>
    by_cases h2 : st.1.has_vla_member = true <;> simp [h1, h2]

/-- The member loop ors the `var_len_array` condition of the new member
into the flag. -/
theorem processMember_vla (ann : AnnIndex) (tn : String)
    (st : TypeEntry × List String) (r : String × CType) :
    (processMember ann tn st r).1.has_vla_member =
      (st.1.has_vla_member || (mkMemberInfo ann tn r).annotations.any isVlaAnnot) := by
  unfold processMember
  by_cases h1 : (mkMemberInfo ann tn r).is_nested_type = true <;>
    by_cases h2 : st.1.has_vla_member = true <;> simp [h1, h2]

/-- The member loop adds the nested type name to the dependency set. -/
theorem processMember_deps (ann : AnnIndex) (tn : String)
    (st : TypeEntry × List String) (r : String × CType) :
    (processMember ann tn st r).1.dependencies =
      (if (mkMemberInfo ann tn r).is_nested_type = true then
        addSet st.1.dependencies (mkMemberInfo ann tn r).nested_type_name
      else st.1.dependencies) := by
  unfold processMember
  by_cases h1 : (mkMemberInfo ann tn r).is_nested_type = true <;>
    by_cases h2 : st.1.has_vla_member = true <;> simp [h1, h2]

/-- The member loop appends the nested type name to the work-list. -/
theorem processMember_wl (ann : AnnIndex) (tn : String)
    (st : TypeEntry × List String) (r : String × CType) :
    (processMember ann tn st r).2 =
      (if (mkMemberInfo ann tn r).is_nested_type = true then
        st.2 ++ [(mkMemberInfo ann tn r).nested_type_name]
      else st.2) := by
  unfold processMember
  by_cases h1 : (mkMemberInfo ann tn r).is_nested_type = true <;>
    by_cases h2 : st.1.has_vla_member = true <;> simp [h1, h2]

/-- Characterization of the whole member loop. -/
theorem foldProcess (ann : AnnIndex) (tn : String) (raw : List (String × CType)) :
    ∀ st : TypeEntry × List String,
    (raw.foldl (processMember ann tn) st).1.appears_in = st.1.appears_in ∧
    (raw.foldl (processMember ann tn) st).1.members =
      st.1.members ++ raw.map (mkMemberInfo ann tn) ∧
    (raw.foldl (processMember ann tn) st).1.has_vla_member =
      (st.1.has_vla_member ||
        (raw.map (mkMemberInfo ann tn)).any (fun m => m.annotations.any isVlaAnnot)) ∧
    (∀ d, d ∈ (raw.foldl (processMember ann tn) st).1.dependencies ↔
      d ∈ st.1.dependencies ∨
        ∃ r ∈ raw, (mkMemberInfo ann tn r).is_nested_type = true ∧
          (mkMemberInfo ann tn r).nested_type_name = d) ∧
    (∀ d, d ∈ (raw.foldl (processMember ann tn) st).2 ↔
      d ∈ st.2 ∨
        ∃ r ∈ raw, (mkMemberInfo ann tn r).is_nested_type = true ∧
          (mkMemberInfo ann tn r).nested_type_name = d) := by
  induction raw with
  | nil =>
    intro st
    simp
  | cons r rs ih =>
    intro st
    rw [List.foldl_cons]
    obtain ⟨i1, i3, i4, i5, i6⟩ := ih (processMember ann tn st r)
    refine ⟨?_, ?_, ?_, ?_, ?_⟩
    · rw [i1, processMember_appears]
    · rw [i3, processMember_members]
      simp
    · rw [i4, processMember_vla]
      simp [Bool.or_assoc]
    · intro d
      rw [i5 d, processMember_deps]
      by_cases hn : (mkMemberInfo ann tn r).is_nested_type = true
      · rw [if_pos hn, mem_addSet]
        constructor
        · rintro ((hd | hd) | ⟨q, hq, hqn, hqd⟩)
          · exact Or.inl hd
          · exact Or.inr ⟨r, List.mem_cons_self _ _, hn, hd.symm⟩
          · exact Or.inr ⟨q, List.mem_cons_of_mem r hq, hqn, hqd⟩
        · rintro (hd | ⟨q, hq, hqn, hqd⟩)
          · exact Or.inl (Or.inl hd)
          · rcases List.mem_cons.mp hq with hqr | hqs
            · exact Or.inl (Or.inr (by rw [← hqd, hqr]))
            · exact Or.inr ⟨q, hqs, hqn, hqd⟩
      · rw [if_neg hn]
        constructor
        · rintro (hd | ⟨q, hq, hqn, hqd⟩)
          · exact Or.inl hd
          · exact Or.inr ⟨q, List.mem_cons_of_mem r hq, hqn, hqd⟩
        · rintro (hd | ⟨q, hq, hqn, hqd⟩)
          · exact Or.inl hd
          · rcases List.mem_cons.mp hq with hqr | hqs
            · exact absurd (hqr ▸ hqn) hn
            · exact Or.inr ⟨q, hqs, hqn, hqd⟩
    · intro d
      rw [i6 d, processMember_wl]
      by_cases hn : (mkMemberInfo ann tn r).is_nested_type = true
      · rw [if_pos hn]
        constructor
        · rintro (hd | ⟨q, hq, hqn, hqd⟩)
          · rcases List.mem_append.mp hd with h1 | h1
            · exact Or.inl h1
            · have hd1 : d = (mkMemberInfo ann tn r).nested_type_name := by simpa using h1
              exact Or.inr ⟨r, List.mem_cons_self _ _, hn, hd1.symm⟩
          · exact Or.inr ⟨q, List.mem_cons_of_mem r hq, hqn, hqd⟩
        · rintro (hd | ⟨q, hq, hqn, hqd⟩)
          · exact Or.inl (List.mem_append_left _ hd)
          · rcases List.mem_cons.mp hq with hqr | hqs
            · refine Or.inl (List.mem_append_right _ ?_)
              simp [← hqd, hqr]
            · exact Or.inr ⟨q, hqs, hqn, hqd⟩
      · rw [if_neg hn]
        constructor
        · rintro (hd | ⟨q, hq, hqn, hqd⟩)
          · exact Or.inl hd
          · exact Or.inr ⟨q, List.mem_cons_of_mem r hq, hqn, hqd⟩
        · rintro (hd | ⟨q, hq, hqn, hqd⟩)
          · exact Or.inl hd
          · rcases List.mem_cons.mp hq with hqr | hqs
            · exact absurd (hqr ▸ hqn) hn
            · exact Or.inr ⟨q, hqs, hqn, hqd⟩

/-- Invariants established by a successful entry parse: no reverse edges
yet, a flag agreeing with the direct condition over the stored members, and
dependencies contained in the work-list additions. -/
theorem parseEntry_ok_inv (ann : AnnIndex) (resolve : Resolver) (tn : String)
    (entry : TypeEntry) (nw : List String)
    (h : parseEntry ann resolve tn = .ok (entry, nw)) :
    entry.appears_in = [] ∧ entry.has_vla_member = memberVla entry ∧
    ∀ d ∈ entry.dependencies, d ∈ nw := by
  unfold parseEntry at h
  rcases hr : resolve tn with - | pr <;> simp only [hr] at h
  · cases h
  · obtain ⟨isU, raw⟩ := pr
    have h2 : raw.foldl (processMember ann tn)
        ({ appears_in := [], dependencies := [], has_vla_member := false,
           members := [], is_union := isU }, []) = (entry, nw) := by
      injection h
    obtain ⟨f1, f3, f4, f5, f6⟩ := foldProcess ann tn raw
      ({ appears_in := [], dependencies := [], has_vla_member := false,
         members := [], is_union := isU }, [])
    rw [h2] at f1 f3 f4 f5 f6
    refine ⟨f1, ?_, ?_⟩
    · unfold memberVla
      rw [f3, f4]
      simp
    · intro d hd
      rcases (f5 d).mp hd with hnil | hex
      · cases hnil
      · exact (f6 d).mpr (Or.inr hex)

/-- Invariant of the discovery work-list: keys are duplicate-free, parsed
entries have no reverse edges and a flag equal to the direct condition, and
every dependency is either already parsed or still on the work-list. -/
def GoodAcc (acc : Graph) (wl : List String) : Prop :=
  (keysOf acc).Nodup ∧
  ∀ p ∈ acc, p.2.appears_in = [] ∧ p.2.has_vla_member = memberVla p.2 ∧
    ∀ d ∈ p.2.dependencies, d ∈ keysOf acc ∨ d ∈ wl

/-- A successful discovery loop yields a graph with duplicate-free keys,
no reverse edges, flags equal to the direct condition, and dependency
edges closed inside the graph. -/
theorem parseLoop_good (ann : AnnIndex) (resolve : Resolver) (fuel : Nat) :
    ∀ (wl : List String) (acc G : Graph),
    parseLoop ann resolve fuel wl acc = .ok G → GoodAcc acc wl →
    (keysOf G).Nodup ∧
    ∀ p ∈ G, p.2.appears_in = [] ∧ p.2.has_vla_member = memberVla p.2 ∧
      ∀ d ∈ p.2.dependencies, d ∈ keysOf G := by
  induction fuel with
  | zero => intro wl acc G h; cases h
  | succ fuel ih =>
    intro wl acc G h hgood
    unfold parseLoop at h
    rcases hlast : wl.getLast? with - | tn <;> simp only [hlast] at h
    · cases h
      refine ⟨hgood.1, fun p hp => ?_⟩
      obtain ⟨h1, h2, h3⟩ := hgood.2 p hp
      refine ⟨h1, h2, fun d hd => ?_⟩
      rcases h3 d hd with hk | hw
      · exact hk
      · rw [getLast?_none hlast] at hw
        cases hw
    · have hdecomp := getLast?_decomp hlast
      by_cases hmem : (lookupG acc tn).isSome
      · rw [if_pos hmem] at h
        refine ih wl.dropLast acc G h ⟨hgood.1, fun p hp => ?_⟩
        obtain ⟨h1, h2, h3⟩ := hgood.2 p hp
        refine ⟨h1, h2, fun d hd => ?_⟩
        rcases h3 d hd with hk | hw
        · exact Or.inl hk
        · have hw' : d ∈ wl.dropLast ++ [tn] := hdecomp ▸ hw
          rcases List.mem_append.mp hw' with h4 | h4
          · exact Or.inr h4
          · have hdtn : d = tn := by simpa using h4
            left
            rw [hdtn, mem_keysOf_iff]
            exact Option.isSome_iff_exists.mp hmem
      · rw [if_neg hmem] at h
        rcases hpe : parseEntry ann resolve tn with er | pr <;> simp only [hpe] at h
        · cases h
        · obtain ⟨entry, nw⟩ := pr
          obtain ⟨e1, e2, e3⟩ := parseEntry_ok_inv ann resolve tn entry nw hpe
          have htn : tn ∉ keysOf acc := by
            intro hc
            obtain ⟨e0, he0⟩ := (mem_keysOf_iff acc tn).mp hc
            rw [he0] at hmem
            simp at hmem
          refine ih _ _ G h ⟨?_, ?_⟩
          · rw [keysOf, List.map_append]
            rw [List.nodup_append]
            refine ⟨hgood.1, by simp, ?_⟩
            intro a ha
            have : a ∈ keysOf acc := ha
            simp only [List.map_cons, List.map_nil, List.mem_singleton]
            intro hc
            rw [hc] at this
            exact htn this
          · intro p hp
            rcases List.mem_append.mp hp with hpacc | hpnew
            · obtain ⟨h1, h2, h3⟩ := hgood.2 p hpacc
              refine ⟨h1, h2, fun d hd => ?_⟩
              rcases h3 d hd with hk | hw
              · left
                rw [keysOf, List.map_append]
                exact List.mem_append_left _ hk
              · have hw' : d ∈ wl.dropLast ++ [tn] := hdecomp ▸ hw
                rcases List.mem_append.mp hw' with h4 | h4
                · exact Or.inr (List.mem_append_left _ h4)
                · left
                  have hdtn : d = tn := by simpa using h4
                  rw [hdtn, keysOf, List.map_append]
                  exact List.mem_append_right _ (by simp)
            · have hpeq : p = (tn, entry) := by simpa using hpnew
              subst hpeq
              refine ⟨e1, e2, fun d hd => ?_⟩
              exact Or.inr (List.mem_append_right _ (e3 d hd))

/-- Claim C4: after `_parse_structs_and_unions` finishes, the
has-variable-length flag of every type is true exactly when that type
itself has a member carrying a `var_len_array` annotation or some
transitive dependency has such a member — the fixed point the source
computes by propagating over the appears-in edges. -/
theorem C4_vla_fixed_point (ann : AnnIndex) (resolve : Resolver)
    (roots : List String) (fuel : Nat) (G : Graph)
    (h : parseStructsAndUnions ann resolve roots fuel = .ok G) (n : String) :
    vlaOf G n = true ↔
      ∃ d, Relation.ReflTransGen (depEdge G) n d ∧ directVlaOf G d = true := by
  unfold parseStructsAndUnions at h
  rcases hp : parseLoop ann resolve fuel roots [] with er | g1 <;> simp only [hp] at h
  · cases h
  · obtain ⟨hnodup, hprops⟩ := parseLoop_good ann resolve fuel roots [] g1 hp
      ⟨by simp [keysOf], fun p hp0 => absurd hp0 (List.not_mem_nil p)⟩
    have hflag : ∀ m, vlaOf g1 m = directVlaOf g1 m := by
      intro m
      unfold vlaOf directVlaOf
      rcases hl : lookupG g1 m with - | e
      · rfl
      · exact (hprops (m, e) (lookupG_some_mem g1 m e hl)).2.1
    have happ1 : ∀ m, appearsOf g1 m = [] := by
      intro m
      rcases hl : lookupG g1 m with - | e
      · exact appearsOf_eq_of_lookup_none g1 m hl
      · rw [appearsOf_eq_of_lookup_some g1 m e hl]
        exact (hprops (m, e) (lookupG_some_mem g1 m e hl)).1
    have hclosed : ∀ m d, d ∈ depsOf g1 m → d ∈ keysOf g1 := by
      intro m d hd
      unfold depsOf at hd
      rcases hl : lookupG g1 m with - | e <;> rw [hl] at hd
      · cases hd
      · exact (hprops (m, e) (lookupG_some_mem g1 m e hl)).2.2 d hd
    have keys2 := keysOf_addAppearsIn g1
    have deps2 := fun m => depsOf_addAppearsIn g1 m
    have vla2 := fun m => vlaOf_addAppearsIn g1 m
    have dir2 := fun m => directVlaOf_addAppearsIn g1 m
    have hF2 : ∀ a b, b ∈ appearsOf (addAppearsIn g1) a ↔
        a ∈ depsOf (addAppearsIn g1) b := by
      intro a b
      rw [mem_appearsOf_addAppearsIn, happ1 a, deps2 b]
      constructor
      · rintro (hc | ⟨p, hp0, hb, ha, hk⟩)
        · cases hc
        · have hpair : (b, p.2) = p := by rw [hb]
          have hpe : lookupG g1 b = some p.2 :=
            mem_lookupG_of_nodup g1 b p.2 hnodup (hpair ▸ hp0)
          unfold depsOf
          rw [hpe]
          exact ha
      · intro ha
        rcases hl : lookupG g1 b with - | e
        · exfalso
          unfold depsOf at ha
          rw [hl] at ha
          cases ha
        · have hae : a ∈ e.dependencies := by
            unfold depsOf at ha
            rw [hl] at ha
            exact ha
          have hak : a ∈ keysOf g1 := hclosed b a (by unfold depsOf; rw [hl]; exact hae)
          exact Or.inr ⟨(b, e), lookupG_some_mem g1 b e hl, rfl, hae, hak⟩
    have hK2 : ∀ x y, y ∈ appearsOf (addAppearsIn g1) x →
        y ∈ keysOf (addAppearsIn g1) := by
      intro x y hy
      rw [keys2]
      rcases (mem_appearsOf_addAppearsIn g1 x y).mp hy with hc | ⟨p, hp0, hyp, -, -⟩
      · rw [happ1 x] at hc
        cases hc
      · rw [hyp]
        exact List.mem_map_of_mem Prod.fst hp0
    obtain ⟨p1, p2, p3, p4⟩ :=
      propagateVla_pres fuel (keysOf (addAppearsIn g1)) (addAppearsIn g1) G h
    have hdirF : ∀ x, vlaOf (addAppearsIn g1) x = true →
        ∃ d, Relation.ReflTransGen (depEdge (addAppearsIn g1)) x d ∧
          directVlaOf (addAppearsIn g1) d = true := by
      intro x hx
      refine ⟨x, Relation.ReflTransGen.refl, ?_⟩
      rw [dir2 x, ← hflag x, ← vla2 x]
      exact hx
    constructor
    · intro hx
      obtain ⟨d, hpath, hd⟩ := propagateVla_sound fuel _ _ G h
        (fun a b hb => (hF2 a b).mp hb) hdirF n hx
      refine ⟨d, ?_, ?_⟩
      · refine Relation.ReflTransGen.mono ?_ hpath
        intro a b hab
        unfold depEdge at hab ⊢
        rw [p2 a]
        exact hab
      · rw [p4 d]
        exact hd
    · rintro ⟨d, hpath, hd⟩
      have hpath2 : Relation.ReflTransGen (depEdge (addAppearsIn g1)) n d := by
        refine Relation.ReflTransGen.mono ?_ hpath
        intro a b hab
        unfold depEdge at hab ⊢
        rw [← p2 a]
        exact hab
      have hd2 : directVlaOf (addAppearsIn g1) d = true := by
        rw [← p4 d]
        exact hd
      have hvd2 : vlaOf (addAppearsIn g1) d = true := by
        rw [vla2 d, hflag d, ← dir2 d]
        exact hd2
      have happath : Relation.ReflTransGen (appEdge (addAppearsIn g1)) d n := by
        refine rtg_reverse ?_ hpath2
        intro a b hab
        unfold depEdge at hab
        unfold appEdge
        exact (hF2 b a).mpr hab
      rcases Relation.ReflTransGen.cases_head happath with heq | ⟨w, hw, hwpath⟩
      · rw [← heq]
        exact propagateVla_mono fuel _ _ G d h hvd2
      · have hdk : d ∈ keysOf (addAppearsIn g1) := by
          by_contra hc
          have hnone : lookupG (addAppearsIn g1) d = none := by
            rcases hl : lookupG (addAppearsIn g1) d with - | e
            · rfl
            · exact absurd ((mem_keysOf_iff _ d).mpr ⟨e, hl⟩) hc
          have happd : appearsOf (addAppearsIn g1) d = [] :=
            appearsOf_eq_of_lookup_none _ d hnone
          unfold appEdge at hw
          rw [happd] at hw
          cases hw
        exact propagateVla_complete fuel _ _ G h hK2 d hdk hvd2 w hw n hwpath

/-- Annotation index for the C4 witness: only field `data` of `chreY`
carries a `var_len_array` record. -/
def c4Ann : AnnIndex := fun tn f =>
  if tn = "chreY" ∧ f = "data" then [Annot.var_len_array "count"] else []

/-- Resolver for the C4 witness: `chreX` nests `chreY`; `chreY` holds the
counted array. -/
def c4Resolve : Resolver := fun n =>
  if n = "chreX" then
    some (false, [("y", { type_spec := "struct chreY", declarators := [] })])
  else if n = "chreY" then
    some (false,
      [("count", { type_spec := "uint32_t", declarators := [] }),
       ("data", { type_spec := "uint32_t", declarators := [Declarator.ptr] })])
  else none

/-- The graph the builder produces for root `chreX`. -/
def c4Graph : Graph :=
  (parseStructsAndUnions c4Ann c4Resolve ["chreX"] 60).toOption.getD []

/-- Claim C4, witness: `chreX` has no direct `var_len_array` member, but
its dependency `chreY` does, so the propagated flag of `chreX` is true by
the fixed-point theorem. -/
theorem C4_witness : vlaOf c4Graph "chreX" = true :=
  (C4_vla_fixed_point c4Ann c4Resolve ["chreX"] 60 c4Graph (by rfl) "chreX").mpr
    ⟨"chreY",
      Relation.ReflTransGen.single
        (by decide : ("chreY" : String) ∈ depsOf c4Graph "chreX"),
      by decide⟩

end ChreApiToChpp
